import Mathlib

/-!
Verification of the TMX editor core (tmx_editor.py) against its specification.

The Python source is shallowly embedded: translation units are values of `TU`,
a Memory is a `List TU`, and each operation of the `TMXEditor` class becomes a
Lean function over those values.  Python strings are Lean `String`s, Python
`None` is `Option.none`, Python floats used as similarity thresholds are
embedded as exact rationals, and Python object identity (which drives
`list.remove` on ElementTree children) is embedded by tagging elements with
distinct natural-number ids.
-/

namespace TMX

/-! ### Text primitives

`pyLower` embeds `str.lower` (per-character, ASCII case model),
`pyStrip` embeds `str.strip`, `pyWords` embeds no-argument `str.split`
(splitting on whitespace runs, dropping empty pieces), and `joinWords`
embeds `" ".join`. -/

def pyLower (s : String) : String := ⟨s.data.map Char.toLower⟩

def pyStrip (s : String) : String :=
  ⟨((s.data.dropWhile Char.isWhitespace).reverse.dropWhile Char.isWhitespace).reverse⟩

def wordsAux : List Char → List Char → List String
  | [], [] => []
  | [], acc => [⟨acc.reverse⟩]
  | c :: rest, acc =>
    if c.isWhitespace then
      (if acc = [] then wordsAux rest [] else ⟨acc.reverse⟩ :: wordsAux rest [])
    else wordsAux rest (c :: acc)

def pyWords (s : String) : List String := wordsAux s.data []

def joinWords : List String → String
  | [] => ""
  | [w] => w
  | w :: rest => w ++ " " ++ joinWords rest

/-- `normalize(text)` of the source: `' '.join(text.lower().split())`. -/
def normalize (s : String) : String := joinWords (pyWords (pyLower s))

/-- The duplicate key built by `remove_exact_duplicates` and `merge_from`:
`f"{norm_source}|||{norm_target}"`. -/
def pairKeyStr (normSrc normTgt : String) : String := normSrc ++ "|||" ++ normTgt

/-! ### Record model

A `Tuv` is a language variant: `lang` is the resolved language attribute
(`xml:lang`, falling back to `lang`, empty when absent) and `seg` is the
text content of the `<seg>` child (`none` when there is no `<seg>`).
A `TU` is a translation unit: its `tuv` children in document order plus the
`creationdate` attribute used by the filter engine. -/

structure Tuv where
  lang : String
  seg : Option String
  deriving DecidableEq

structure TU where
  tuvs : List Tuv
  creationdate : Option String
  deriving DecidableEq

/-- `_get_seg_text`: `''` for a missing `<seg>`, else the stripped text. -/
def getSegText : Option String → String
  | none => ""
  | some s => pyStrip s

/-- The variant-selection loop of `_get_tu_texts`:
for each tuv, if its lowercased language equals the source language, or no
variant has been chosen yet, it becomes the source variant; otherwise, if its
language equals the target language or no target was chosen, it becomes the
target variant. -/
def pickTuvs (sl tl : String) : List Tuv → Option Tuv → Option Tuv → Option Tuv × Option Tuv
  | [], s, t => (s, t)
  | tuv :: rest, s, t =>
    let lg := pyLower tuv.lang
    if lg = sl ∨ (s = none ∧ t = none) then pickTuvs sl tl rest (some tuv) t
    else if lg = tl ∨ t = none then pickTuvs sl tl rest s (some tuv)
    else pickTuvs sl tl rest s t

/-- `_get_tu_texts`: `(None, None)` when the unit has fewer than two variants,
otherwise the source and target segment texts, with `tuvs[0]` and `tuvs[1]`
as fallbacks when the selection loop left a slot empty. -/
def getTuTexts (sl tl : String) (tu : TU) : Option (String × String) :=
  match tu.tuvs with
  | t0 :: t1 :: _ =>
    let st := pickTuvs sl tl tu.tuvs none none
    let sT := st.1.getD t0
    let tT := st.2.getD t1
    some (getSegText sT.seg, getSegText tT.seg)
  | _ => none

/-- The dedup key of a unit: `none` for a unit whose source text is null,
else `normalize(source) + "|||" + normalize(target)`. -/
def tuKey (sl tl : String) (tu : TU) : Option String :=
  (getTuTexts sl tl tu).map fun p => pairKeyStr (normalize p.1) (normalize p.2)

/-! ### Operation 1: `remove_exact_duplicates` -/

/-- The marking pass of `remove_exact_duplicates`: each unit is paired with
`true` when it is put on the removal list (its key was seen before), `false`
otherwise; `seen` is the set of keys recorded so far. -/
def dedupScan (sl tl : String) : List TU → List String → List (TU × Bool)
  | [], _ => []
  | tu :: rest, seen =>
    match tuKey sl tl tu with
    | none => (tu, false) :: dedupScan sl tl rest seen
    | some k =>
      if k ∈ seen then (tu, true) :: dedupScan sl tl rest seen
      else (tu, false) :: dedupScan sl tl rest (k :: seen)

structure DedupResult where
  newMem : List TU
  removedCount : Nat
  uniqueCount : Nat
  totalBefore : Nat
  deriving DecidableEq

/-- `remove_exact_duplicates`: mark duplicates in one pass, then remove the
marked units (each marked unit is a distinct object, so identity-based
`body.remove` deletes exactly the marked positions). -/
def removeExactDuplicates (sl tl : String) (mem : List TU) : DedupResult :=
  let marks := dedupScan sl tl mem []
  let removed := (marks.filter (fun p => p.2)).length
  { newMem := (marks.filter (fun p => !p.2)).map Prod.fst
    removedCount := removed
    uniqueCount := mem.length - removed
    totalBefore := mem.length }

/-! ### Operation 3: `remove_empty_segments` -/

inductive EmptyReason where
  | missingTuv | invalidStructure | bothEmpty | emptySource | emptyTarget
  deriving DecidableEq

/-- The per-unit classification of `remove_empty_segments` (first matching
branch wins); `none` means the unit is kept. -/
def classifyTu (sl tl : String) (tu : TU) : Option EmptyReason :=
  if tu.tuvs.length < 2 then some .missingTuv
  else
    match getTuTexts sl tl tu with
    | none => some .invalidStructure
    | some (src, tgt) =>
      if src = "" ∧ tgt = "" then some .bothEmpty
      else if src = "" then some .emptySource
      else if tgt = "" then some .emptyTarget
      else none

structure EmptyResult where
  newMem : List TU
  removedCount : Nat
  remainingCount : Nat
  totalBefore : Nat
  missingTuv : Nat
  invalidStructure : Nat
  bothEmpty : Nat
  emptySource : Nat
  emptyTarget : Nat
  deriving DecidableEq

/-- `remove_empty_segments`: classify every unit, remove the classified ones,
and report counts per category. -/
def removeEmptySegments (sl tl : String) (mem : List TU) : EmptyResult :=
  let removedList := mem.filter fun tu => (classifyTu sl tl tu).isSome
  { newMem := mem.filter fun tu => (classifyTu sl tl tu) = none
    removedCount := removedList.length
    remainingCount := mem.length - removedList.length
    totalBefore := mem.length
    missingTuv := (mem.filter fun tu => classifyTu sl tl tu = some .missingTuv).length
    invalidStructure := (mem.filter fun tu => classifyTu sl tl tu = some .invalidStructure).length
    bothEmpty := (mem.filter fun tu => classifyTu sl tl tu = some .bothEmpty).length
    emptySource := (mem.filter fun tu => classifyTu sl tl tu = some .emptySource).length
    emptyTarget := (mem.filter fun tu => classifyTu sl tl tu = some .emptyTarget).length }

/-! ### Operation 5: `filter_tus`

A compiled regular expression is embedded as its `search` predicate
(`String → Bool`); `re.compile` happens before the scan, so a criteria value
always carries well-formed predicates.  Date bounds compare the first eight
characters of `creationdate` lexicographically by code point. -/

structure FilterCriteria where
  srcPat : Option (String → Bool)
  tgtPat : Option (String → Bool)
  dateFrom : Option String
  dateTo : Option String

/-- Python string `<` : lexicographic comparison by code point. -/
def charsLt : List Char → List Char → Bool
  | _, [] => false
  | [], _ :: _ => true
  | a :: as, b :: bs => a < b || (a = b && charsLt as bs)

def pyStrLt (a b : String) : Bool := charsLt a.data b.data

/-- `creation_date[:8] if creation_date else ''`. -/
def datePart (tu : TU) : String :=
  let cd := tu.creationdate.getD ""
  if cd ≠ "" then ⟨cd.data.take 8⟩ else ""

/-- The combined (pre-invert) match of one unit against the criteria. -/
def tuMatches (c : FilterCriteria) (tu : TU) (src tgt : String) : Bool :=
  let m1 : Bool := match c.srcPat with | some p => p src | none => true
  let m2 : Bool := match c.tgtPat with | some p => p tgt | none => true
  let m3 : Bool :=
    if c.dateFrom.isSome ∨ c.dateTo.isSome then
      let dp := datePart tu
      let lo : Bool := match c.dateFrom with | some d => ¬ pyStrLt dp d | none => true
      let hi : Bool := match c.dateTo with | some d => ¬ pyStrLt d dp | none => true
      lo && hi
    else true
  m1 && m2 && m3

/-- `filter_tus`: units with a null source are skipped; otherwise the ANDed
criteria (negated under `invert`) decide membership, in document order. -/
def filterTus (sl tl : String) (c : FilterCriteria) (invert : Bool) : List TU → List TU
  | [] => []
  | tu :: rest =>
    match getTuTexts sl tl tu with
    | none => filterTus sl tl c invert rest
    | some (src, tgt) =>
      let m := tuMatches c tu src tgt
      let m := if invert then !m else m
      if m then tu :: filterTus sl tl c invert rest else filterTus sl tl c invert rest

/-! ### Operation 7: `merge_from`

ElementTree elements are Python objects compared by identity inside
`body.remove`; the embedding tags every element with a distinct id.  Deep
copies receive fresh ids (the `fresh` counter), mirroring that `copy.deepcopy`
creates a new object.  The Python `dict` and `set` used for the indexes are
embedded as a shadowing association list (`set` = cons in front) and a
duplicate-free list. -/

structure Elem where
  id : Nat
  tu : TU
  deriving DecidableEq

/-- Tag a list of units with consecutive ids starting at `base`. -/
def tagElems (l : List TU) (base : Nat) : List Elem :=
  l.enum.map fun p => ⟨base + p.1, p.2⟩

/-- Dict lookup on a shadowing association list (first entry wins). -/
def lookupA (m : List (String × Elem)) (k : String) : Option Elem :=
  (m.find? fun p => p.1 = k).map Prod.snd

/-- Set insertion: `s.add(k)`. -/
def insertS (s : List String) (k : String) : List String :=
  if k ∈ s then s else k :: s

/-- The index-building loop of `merge_from`: the set of `pairKey`s of the
target body and the map `normalize(source) → element` (dict assignment, so a
later unit with the same source shadows an earlier one). -/
def buildIndex (sl tl : String) (body : List Elem) : List String × List (String × Elem) :=
  body.foldl
    (fun acc e =>
      match getTuTexts sl tl e.tu with
      | none => acc
      | some (src, tgt) =>
        (insertS acc.1 (pairKeyStr (normalize src) (normalize tgt)),
         (normalize src, e) :: acc.2))
    ([], [])

/-- `list.remove` by object identity: delete the first element with the given
id, `none` (Python `ValueError`) when no element has it. -/
def removeFirstById : List Elem → Nat → Option (List Elem)
  | [], _ => none
  | e :: rest, i =>
    if e.id = i then some rest
    else (removeFirstById rest i).map (e :: ·)

inductive Strategy where
  | skip | replace | keepBoth
  deriving DecidableEq

structure MergeSt where
  body : List Elem
  pairs : List String
  sources : List (String × Elem)
  added : Nat
  skipped : Nat
  replaced : Nat
  fresh : Nat

/-- Outcome of a merge: the final body and counts, or — when `body.remove`
raises `ValueError` partway through — the body as already mutated at the
moment of failure. -/
inductive MergeOut where
  | ok (body : List Elem) (added skipped replaced totalAfter : Nat)
  | err (bodyAtFailure : List Elem)
  deriving DecidableEq

/-- The scan of `merge_from` over the source body.  Under `replace` the source
index is updated with the original incoming element (not the appended deep
copy), exactly as the Python does. -/
def mergeLoop (slB tlB : String) (strat : Strategy) : List Elem → MergeSt → MergeOut
  | [], st => .ok st.body st.added st.skipped st.replaced st.body.length
  | e :: rest, st =>
    match getTuTexts slB tlB e.tu with
    | none => mergeLoop slB tlB strat rest st
    | some (src, tgt) =>
      let ns := normalize src
      let pk := pairKeyStr ns (normalize tgt)
      if pk ∈ st.pairs then
        mergeLoop slB tlB strat rest { st with skipped := st.skipped + 1 }
      else
        match lookupA st.sources ns with
        | some old =>
          match strat with
          | .skip => mergeLoop slB tlB strat rest { st with skipped := st.skipped + 1 }
          | .replace =>
            match removeFirstById st.body old.id with
            | none => .err st.body
            | some body' =>
              mergeLoop slB tlB strat rest
                { st with
                  body := body' ++ [⟨st.fresh, e.tu⟩]
                  sources := (ns, e) :: st.sources
                  replaced := st.replaced + 1
                  fresh := st.fresh + 1 }
          | .keepBoth =>
            mergeLoop slB tlB strat rest
              { st with
                body := st.body ++ [⟨st.fresh, e.tu⟩]
                added := st.added + 1
                fresh := st.fresh + 1 }
        | none =>
          mergeLoop slB tlB strat rest
            { st with
              body := st.body ++ [⟨st.fresh, e.tu⟩]
              pairs := insertS st.pairs pk
              sources := (ns, e) :: st.sources
              added := st.added + 1
              fresh := st.fresh + 1 }

/-- `merge_from`: build the indexes from the target memory `A` (its detected
language pair `slA, tlA`), then scan the source memory `B` (language pair
`slB, tlB`).  The ids `0 .. |A|-1` and `|A| .. |A|+|B|-1` embed the distinct
Python objects of the two trees; fresh copies start at `|A|+|B|`. -/
def mergeFrom (slA tlA slB tlB : String) (A B : List TU) (strat : Strategy) : MergeOut :=
  let A0 := tagElems A 0
  let B0 := tagElems B A.length
  let idx := buildIndex slA tlA A0
  mergeLoop slB tlB strat B0
    { body := A0, pairs := idx.1, sources := idx.2
      added := 0, skipped := 0, replaced := 0, fresh := A.length + B.length }

/-! ### difflib.SequenceMatcher (isjunk = None)

`SequenceMatcher(None, a, b).ratio()` as used by `find_fuzzy_duplicates`.
`b2j` maps an element to the ascending list of its indices in `b`, with
autojunk removing popular elements for `len(b) >= 200`; with `isjunk = None`
the junk set is empty, so the two junk-extension loops of
`find_longest_match` never run and are omitted.  The per-row dictionary
`j2len` is embedded as a total function defaulting to 0; `j2len.get(j-1, 0)`
at `j = 0` queries the absent key `-1`, hence the explicit `j = 0` case.
Loops whose Python termination is a decreasing index are embedded with an
explicit fuel argument chosen large enough to never be exhausted before the
loop guard fails. -/

def b2j (b : List Char) (c : Char) : List Nat :=
  let idx := (b.enum.filter fun p => p.2 = c).map Prod.fst
  if 200 ≤ b.length ∧ b.length / 100 + 1 < idx.length then [] else idx

/-- One iteration of the inner `for j` loop of `find_longest_match`:
extend the diagonal run ending at `(i, j)` (`j2len.get(j-1, 0) + 1`, with the
`j = 0` case standing for the absent key `-1`) and update the best match when
the run is longer. -/
def flmStep (i : Nat) (f : Nat → Nat) (acc : (Nat → Nat) × (Nat × Nat × Nat))
    (j : Nat) : (Nat → Nat) × (Nat × Nat × Nat) :=
  let k := if j = 0 then 1 else f (j - 1) + 1
  let new := Function.update acc.1 j k
  if acc.2.2.2 < k then (new, (i + 1 - k, j + 1 - k, k)) else (new, acc.2)

/-- One row (`for j in b2j.get(a[i], nothing)`) of `find_longest_match`:
`j < blo` is `continue`, `j >= bhi` is `break` (indices are ascending). -/
def flmRow (a b : List Char) (blo bhi i : Nat) (f : Nat → Nat)
    (best : Nat × Nat × Nat) : (Nat → Nat) × (Nat × Nat × Nat) :=
  let js := ((b2j b (a.getD i default)).takeWhile (· < bhi)).filter (blo ≤ ·)
  js.foldl (flmStep i f) ((fun _ => 0), best)

/-- The outer row loop `for i in range(alo, ahi)`: `n` rows starting at `i`. -/
def flmRows (a b : List Char) (blo bhi : Nat) : Nat → Nat → (Nat → Nat) →
    (Nat × Nat × Nat) → Nat × Nat × Nat
  | _, 0, _, best => best
  | i, n + 1, f, best =>
    let r := flmRow a b blo bhi i f best
    flmRows a b blo bhi (i + 1) n r.1 r.2

/-- The downward extension loop of `find_longest_match` (its fuel is the
start value of `besti`, which decreases by one per iteration). -/
def extLow (a b : List Char) (alo blo : Nat) : Nat → Nat → Nat → Nat → Nat × Nat × Nat
  | 0, bi, bj, k => (bi, bj, k)
  | fuel + 1, bi, bj, k =>
    if alo < bi ∧ blo < bj ∧ a.getD (bi - 1) default = b.getD (bj - 1) default then
      extLow a b alo blo fuel (bi - 1) (bj - 1) (k + 1)
    else (bi, bj, k)

/-- The upward extension loop (its fuel is `ahi`, an upper bound on the
number of increments of `bestsize`). -/
def extHigh (a b : List Char) (ahi bhi : Nat) : Nat → Nat → Nat → Nat → Nat × Nat × Nat
  | 0, bi, bj, k => (bi, bj, k)
  | fuel + 1, bi, bj, k =>
    if bi + k < ahi ∧ bj + k < bhi ∧ a.getD (bi + k) default = b.getD (bj + k) default then
      extHigh a b ahi bhi fuel bi bj (k + 1)
    else (bi, bj, k)

/-- `find_longest_match(alo, ahi, blo, bhi)`. -/
def findLongestMatch (a b : List Char) (alo ahi blo bhi : Nat) : Nat × Nat × Nat :=
  let best := flmRows a b blo bhi alo (ahi - alo) (fun _ => 0) (alo, blo, 0)
  let low := extLow a b alo blo best.1 best.1 best.2.1 best.2.2
  extHigh a b ahi bhi ahi low.1 low.2.1 low.2.2

/-- The recursive block collection of `get_matching_blocks` (the Python
drives it with an explicit stack and then sorts; only the multiset of blocks
matters for `ratio`, and the final adjacent-block merging preserves the total
matched size).  The fuel bounds the recursion depth. -/
def matchingBlocksRec (a b : List Char) : Nat → Nat → Nat → Nat → Nat → List (Nat × Nat × Nat)
  | 0, _, _, _, _ => []
  | fuel + 1, alo, ahi, blo, bhi =>
    let m := findLongestMatch a b alo ahi blo bhi
    if m.2.2 = 0 then []
    else
      matchingBlocksRec a b fuel alo m.1 blo m.2.1 ++
        m :: matchingBlocksRec a b fuel (m.1 + m.2.2) ahi (m.2.1 + m.2.2) bhi

/-- `matches`: the summed sizes of all matching blocks. -/
def matchesTotal (a b : List Char) : Nat :=
  ((matchingBlocksRec a b (a.length + 1) 0 a.length 0 b.length).map
    fun m => m.2.2).sum

/-- `ratio()` = `2.0 * matches / (len(a) + len(b))`, or 1 for two empty
sequences, embedded over exact rationals. -/
def ratioQ (a b : String) : ℚ :=
  if a.data.length + b.data.length = 0 then 1
  else (2 * matchesTotal a.data b.data : ℚ) / (a.data.length + b.data.length)

/-! ### Operation 2: `find_fuzzy_duplicates` -/

structure UT where
  num : Nat
  src : String
  tgt : String
  deriving DecidableEq

structure Sim where
  num : Nat
  src : String
  tgt : String
  sim : ℚ
  deriving DecidableEq

structure Group where
  repNum : Nat
  repSrc : String
  repTgt : String
  sims : List Sim
  deriving DecidableEq

/-- `round(x, 1)` (the half-to-even detail of Python float rounding is
abstracted to rounding of the exact rational). -/
def round1 (q : ℚ) : ℚ := (round (q * 10) : ℤ) / 10

/-- One step of the extraction pass: a unit is kept when its source text is
non-null and non-empty (`if src:`), numbered by its 1-based position. -/
def tuDataF (sl tl : String) (p : Nat × TU) : Option UT :=
  match getTuTexts sl tl p.2 with
  | some (s, t) => if s ≠ "" then some ⟨p.1 + 1, s, t⟩ else none
  | none => none

/-- The extraction pass of `find_fuzzy_duplicates`. -/
def tuData (sl tl : String) (mem : List TU) : List UT :=
  mem.enum.filterMap (tuDataF sl tl)

/-- Keep only the first unit for each distinct normalized source. -/
def uniqueBySource : List UT → List String → List UT
  | [], _ => []
  | u :: rest, seen =>
    let n := normalize u.src
    if n ∈ seen then uniqueBySource rest seen
    else u :: uniqueBySource rest (n :: seen)

/-- Stable insertion keeping ascending source length (a later unit with equal
length goes after the earlier one, as with the stable Python `list.sort`). -/
def insSorted (u : UT) : List UT → List UT
  | [] => [u]
  | v :: rest =>
    if u.src.length < v.src.length then u :: v :: rest else v :: insSorted u rest

/-- `unique_tus.sort(key=lambda x: len(x[2]))`: a stable ascending sort by
source length. -/
def sortByLen (l : List UT) : List UT := l.foldl (fun acc u => insSorted u acc) []

/-- The inner scan over candidates `j > i` (position-tagged suffix), with the
length-ratio pruning `break`.  `m` is the shared `matched` flag array. -/
def innerScan (τ : ℚ) (li : Nat) (isrc : String) :
    List (Nat × UT) → (Nat → Bool) → (Nat → Bool) × List Sim
  | [], m => (m, [])
  | (j, u) :: rest, m =>
    if m j then innerScan τ li isrc rest m
    else if 0 < li ∧ (li : ℚ) / τ < (u.src.length : ℚ) then (m, [])
    else
      let r := ratioQ (pyLower isrc) (pyLower u.src)
      if τ ≤ r then
        let res := innerScan τ li isrc rest (Function.update m j true)
        (res.1, ⟨u.num, u.src, u.tgt, round1 (r * 100)⟩ :: res.2)
      else innerScan τ li isrc rest m

/-- The outer greedy-clustering loop over the sorted unique units. -/
def outerScan (τ : ℚ) : List (Nat × UT) → (Nat → Bool) → List Group
  | [], _ => []
  | (i, u) :: rest, m =>
    if m i then outerScan τ rest m
    else
      let res := innerScan τ u.src.length u.src rest m
      let gs := outerScan τ rest res.1
      if res.2 = [] then gs else ⟨u.num, u.src, u.tgt, res.2⟩ :: gs

/-- `find_fuzzy_duplicates(threshold)`. -/
def findFuzzyDuplicates (sl tl : String) (τ : ℚ) (mem : List TU) : List Group :=
  outerScan τ (sortByLen (uniqueBySource (tuData sl tl mem) [])).enum (fun _ => false)

/-- Reference for the refinement claim, following the wording of the
specification: the same greedy clustering run without the length-ratio early
exit.  Identical to `innerScan` with the `break` removed. -/
def innerScanNoBreak (τ : ℚ) (li : Nat) (isrc : String) :
    List (Nat × UT) → (Nat → Bool) → (Nat → Bool) × List Sim
  | [], m => (m, [])
  | (j, u) :: rest, m =>
    if m j then innerScanNoBreak τ li isrc rest m
    else
      let r := ratioQ (pyLower isrc) (pyLower u.src)
      if τ ≤ r then
        let res := innerScanNoBreak τ li isrc rest (Function.update m j true)
        (res.1, ⟨u.num, u.src, u.tgt, round1 (r * 100)⟩ :: res.2)
      else innerScanNoBreak τ li isrc rest m

/-- The greedy clustering without the early exit (specification reference). -/
def outerScanNoBreak (τ : ℚ) : List (Nat × UT) → (Nat → Bool) → List Group
  | [], _ => []
  | (i, u) :: rest, m =>
    if m i then outerScanNoBreak τ rest m
    else
      let res := innerScanNoBreak τ u.src.length u.src rest m
      let gs := outerScanNoBreak τ rest res.1
      if res.2 = [] then gs else ⟨u.num, u.src, u.tgt, res.2⟩ :: gs

/-- `find_fuzzy_duplicates` without the length-ratio early exit
(specification reference for the refinement claim). -/
def findFuzzyDuplicatesNoBreak (sl tl : String) (τ : ℚ) (mem : List TU) : List Group :=
  outerScanNoBreak τ (sortByLen (uniqueBySource (tuData sl tl mem) [])).enum (fun _ => false)

/-! ## Theorems -/

/-! ### C3: injectivity of the pair key -/

/-- Splitting at a separator character is unambiguous when neither left part
contains that character. -/
theorem sep_append_inj {c : Char} :
    ∀ (a1 a2 b1 b2 : List Char), c ∉ a1 → c ∉ a2 →
      a1 ++ c :: b1 = a2 ++ c :: b2 → a1 = a2 ∧ b1 = b2 := by
  intro a1
  induction a1 with
  | nil =>
    intro a2 b1 b2 _ h2 h
    cases a2 with
    | nil => simpa using h
    | cons x r =>
      simp only [List.nil_append, List.cons_append, List.cons.injEq] at h
      exact absurd (h.1 ▸ List.mem_cons_self x r) h2
  | cons x r ih =>
    intro a2 b1 b2 h1 h2 h
    cases a2 with
    | nil =>
      simp only [List.cons_append, List.nil_append, List.cons.injEq] at h
      exact absurd (h.1 ▸ List.mem_cons_self x r) h1
    | cons y r' =>
      simp only [List.cons_append, List.cons.injEq] at h
      obtain ⟨rfl, h⟩ := h
      have := ih r' b1 b2 (fun hm => h1 (List.mem_cons_of_mem _ hm))
        (fun hm => h2 (List.mem_cons_of_mem _ hm)) h
      exact ⟨by rw [this.1], this.2⟩

/-- Helper: the pair key determines its components whenever the left
component contains no pipe character. -/
theorem pairKeyStr_inj {s1 t1 s2 t2 : String}
    (h1 : '|' ∉ s1.data) (h2 : '|' ∉ s2.data)
    (h : pairKeyStr s1 t1 = pairKeyStr s2 t2) : s1 = s2 ∧ t1 = t2 := by
  have hd : s1.data ++ '|' :: ('|' :: '|' :: t1.data) =
      s2.data ++ '|' :: ('|' :: '|' :: t2.data) := by
    have := congrArg String.data h
    simpa [pairKeyStr, String.data_append] using this
  have := sep_append_inj _ _ _ _ h1 h2 hd
  refine ⟨String.ext this.1, String.ext ?_⟩
  have h2' := this.2
  simpa using h2'

/-- C3 counterexample: the three-pipe separator does collide with text.
The pairs ("a|||b", "c") and ("a", "b|||c") produce the same pair key while
their normalized sources differ, refuting the claimed injectivity. -/
theorem pairKey_collision_cx :
    pairKeyStr (normalize "a|||b") (normalize "c") =
      pairKeyStr (normalize "a") (normalize "b|||c") ∧
    normalize "a|||b" ≠ normalize "a" := by decide

/-- C3 (amended): the pair key is injective on pairs whose normalized source
texts contain no pipe character. -/
theorem pairKey_inj_no_pipe (s1 t1 s2 t2 : String)
    (h1 : '|' ∉ (normalize s1).data) (h2 : '|' ∉ (normalize s2).data)
    (h : pairKeyStr (normalize s1) (normalize t1) =
         pairKeyStr (normalize s2) (normalize t2)) :
    normalize s1 = normalize s2 ∧ normalize t1 = normalize t2 :=
  pairKeyStr_inj h1 h2 h

/-- C3 witness: the amended injectivity applied at a concrete pipe-free pair. -/
theorem pairKey_inj_no_pipe_witness :
    normalize "Hello  World" = normalize "hello world" ∧
      normalize "ABC" = normalize "abc" :=
  pairKey_inj_no_pipe "Hello  World" "ABC" "hello world" "abc"
    (by decide) (by decide) (by decide)

/-! ### C6 and C8: exact deduplication -/

theorem dedupScan_map_fst (sl tl : String) :
    ∀ (mem : List TU) (seen : List String),
      (dedupScan sl tl mem seen).map Prod.fst = mem := by
  intro mem
  induction mem with
  | nil => intro seen; rfl
  | cons h rest ih =>
    intro seen
    cases htex : tuKey sl tl h with
    | none => simp [dedupScan, htex, ih]
    | some k =>
      by_cases hk : k ∈ seen <;> simp [dedupScan, htex, hk, ih]

theorem dedupScan_length (sl tl : String) (mem : List TU) (seen : List String) :
    (dedupScan sl tl mem seen).length = mem.length := by
  have := congrArg List.length (dedupScan_map_fst sl tl mem seen)
  simpa using this

/-- Shift an existence-of-earlier-witness statement across a cons. -/
theorem exists_prev_cons {P : TU → Prop} (h : TU) (rest : List TU) (i : Nat) :
    (∃ j tu', j < i + 1 ∧ (h :: rest)[j]? = some tu' ∧ P tu') ↔
      P h ∨ ∃ j tu', j < i ∧ rest[j]? = some tu' ∧ P tu' := by
  constructor
  · rintro ⟨j, tu', hj, hget, hp⟩
    cases j with
    | zero =>
      left
      simp only [List.getElem?_cons_zero, Option.some.injEq] at hget
      exact hget ▸ hp
    | succ j' =>
      right
      exact ⟨j', tu', by omega, by simpa using hget, hp⟩
  · rintro (hp | ⟨j, tu', hj, hget, hp⟩)
    · exact ⟨0, h, by omega, by simp, hp⟩
    · exact ⟨j + 1, tu', by omega, by simpa using hget, hp⟩

/-- A unit is flagged for removal exactly when its key is non-null and was
already seen — either in the initial `seen` set or on an earlier unit. -/
theorem dedupScan_flag_iff (sl tl : String) :
    ∀ (mem : List TU) (seen : List String) (i : Nat) (tu : TU),
      mem[i]? = some tu →
      ((dedupScan sl tl mem seen)[i]?.map Prod.snd = some true ↔
        ∃ k, tuKey sl tl tu = some k ∧
          (k ∈ seen ∨ ∃ j tu', j < i ∧ mem[j]? = some tu' ∧ tuKey sl tl tu' = some k)) := by
  intro mem
  induction mem with
  | nil => intro seen i tu hget; simp at hget
  | cons h rest ih =>
    intro seen i tu hget
    cases i with
    | zero =>
      have hh : h = tu := by simpa using hget
      subst hh
      cases htex : tuKey sl tl h with
      | none =>
        have e : dedupScan sl tl (h :: rest) seen
            = (h, false) :: dedupScan sl tl rest seen := by simp [dedupScan, htex]
        rw [e]
        simp [htex]
      | some k =>
        by_cases hk : k ∈ seen
        · have e : dedupScan sl tl (h :: rest) seen
              = (h, true) :: dedupScan sl tl rest seen := by simp [dedupScan, htex, hk]
          rw [e]
          simp [htex, hk]
        · have e : dedupScan sl tl (h :: rest) seen
              = (h, false) :: dedupScan sl tl rest (k :: seen) := by
            simp [dedupScan, htex, hk]
          rw [e]
          simp [htex, hk]
    | succ i' =>
      simp only [List.getElem?_cons_succ] at hget
      cases htex : tuKey sl tl h with
      | none =>
        rw [show dedupScan sl tl (h :: rest) seen
            = (h, false) :: dedupScan sl tl rest seen by simp [dedupScan, htex]]
        simp only [List.getElem?_cons_succ]
        rw [ih seen i' tu hget]
        constructor
        · rintro ⟨k, hk, hor⟩
          refine ⟨k, hk, ?_⟩
          rcases hor with hs | ⟨j, tu', hj, hg, hk'⟩
          · exact Or.inl hs
          · exact Or.inr ⟨j + 1, tu', by omega, by simpa using hg, hk'⟩
        · rintro ⟨k, hk, hor⟩
          refine ⟨k, hk, ?_⟩
          rcases hor with hs | hex
          · exact Or.inl hs
          · rcases (exists_prev_cons h rest i').mp hex with hph | hex'
            · rw [htex] at hph; cases hph
            · exact Or.inr hex'
      | some kh =>
        by_cases hk : kh ∈ seen
        · rw [show dedupScan sl tl (h :: rest) seen
              = (h, true) :: dedupScan sl tl rest seen by simp [dedupScan, htex, hk]]
          simp only [List.getElem?_cons_succ]
          rw [ih seen i' tu hget]
          constructor
          · rintro ⟨k, hkk, hor⟩
            refine ⟨k, hkk, ?_⟩
            rcases hor with hs | ⟨j, tu', hj, hg, hk'⟩
            · exact Or.inl hs
            · exact Or.inr ⟨j + 1, tu', by omega, by simpa using hg, hk'⟩
          · rintro ⟨k, hkk, hor⟩
            refine ⟨k, hkk, ?_⟩
            rcases hor with hs | hex
            · exact Or.inl hs
            · rcases (exists_prev_cons h rest i').mp hex with hph | hex'
              · rw [htex] at hph
                cases hph
                exact Or.inl hk
              · exact Or.inr hex'
        · rw [show dedupScan sl tl (h :: rest) seen
              = (h, false) :: dedupScan sl tl rest (kh :: seen) by simp [dedupScan, htex, hk]]
          simp only [List.getElem?_cons_succ]
          rw [ih (kh :: seen) i' tu hget]
          constructor
          · rintro ⟨k, hkk, hor⟩
            refine ⟨k, hkk, ?_⟩
            rcases hor with hs | ⟨j, tu', hj, hg, hk'⟩
            · rcases List.mem_cons.mp hs with rfl | hs'
              · exact Or.inr ⟨0, h, by omega, by simp, htex⟩
              · exact Or.inl hs'
            · exact Or.inr ⟨j + 1, tu', by omega, by simpa using hg, hk'⟩
          · rintro ⟨k, hkk, hor⟩
            refine ⟨k, hkk, ?_⟩
            rcases hor with hs | hex
            · exact Or.inl (List.mem_cons_of_mem _ hs)
            · rcases (exists_prev_cons h rest i').mp hex with hph | hex'
              · rw [htex] at hph
                cases hph
                exact Or.inl (List.mem_cons_self _ _)
              · exact Or.inr hex'

/-- Keys of the surviving units are duplicate-free and avoid the initial
`seen` set. -/
theorem dedupScan_kept_keys (sl tl : String) :
    ∀ (mem : List TU) (seen : List String),
      ((((dedupScan sl tl mem seen).filter fun p => !p.2).map Prod.fst).filterMap
          (tuKey sl tl)).Nodup ∧
      ∀ k ∈ (((dedupScan sl tl mem seen).filter fun p => !p.2).map Prod.fst).filterMap
          (tuKey sl tl), k ∉ seen := by
  intro mem
  induction mem with
  | nil => intro seen; simp [dedupScan]
  | cons h rest ih =>
    intro seen
    cases htex : tuKey sl tl h with
    | none =>
      have e : dedupScan sl tl (h :: rest) seen
          = (h, false) :: dedupScan sl tl rest seen := by simp [dedupScan, htex]
      have e2 : (((((h, false) :: dedupScan sl tl rest seen).filter
              fun p => !p.2).map Prod.fst).filterMap (tuKey sl tl))
          = ((((dedupScan sl tl rest seen).filter
              fun p => !p.2).map Prod.fst).filterMap (tuKey sl tl)) := by
        simp [htex]
      rw [e, e2]
      exact ih seen
    | some k =>
      by_cases hk : k ∈ seen
      · have e : dedupScan sl tl (h :: rest) seen
            = (h, true) :: dedupScan sl tl rest seen := by simp [dedupScan, htex, hk]
        have e2 : (((((h, true) :: dedupScan sl tl rest seen).filter
                fun p => !p.2).map Prod.fst).filterMap (tuKey sl tl))
            = ((((dedupScan sl tl rest seen).filter
                fun p => !p.2).map Prod.fst).filterMap (tuKey sl tl)) := by
          simp
        rw [e, e2]
        exact ih seen
      · have e : dedupScan sl tl (h :: rest) seen
            = (h, false) :: dedupScan sl tl rest (k :: seen) := by simp [dedupScan, htex, hk]
        have e2 : (((((h, false) :: dedupScan sl tl rest (k :: seen)).filter
                fun p => !p.2).map Prod.fst).filterMap (tuKey sl tl))
            = k :: ((((dedupScan sl tl rest (k :: seen)).filter
                fun p => !p.2).map Prod.fst).filterMap (tuKey sl tl)) := by
          simp [htex]
        rw [e, e2]
        obtain ⟨ihn, ihs⟩ := ih (k :: seen)
        refine ⟨List.nodup_cons.mpr
          ⟨fun hmem => (ihs k hmem) (List.mem_cons_self _ _), ihn⟩, ?_⟩
        intro k' hk'
        rcases List.mem_cons.mp hk' with rfl | hmem
        · exact hk
        · exact fun hs => (ihs k' hmem) (List.mem_cons_of_mem _ hs)

/-- Units whose source text is null pass through deduplication untouched. -/
theorem dedupScan_null_filter (sl tl : String) :
    ∀ (mem : List TU) (seen : List String),
      ((((dedupScan sl tl mem seen).filter fun p => !p.2).map Prod.fst).filter
          fun tu => (getTuTexts sl tl tu).isNone)
        = mem.filter fun tu => (getTuTexts sl tl tu).isNone := by
  intro mem
  induction mem with
  | nil => intro seen; rfl
  | cons h rest ih =>
    intro seen
    cases htex : getTuTexts sl tl h with
    | none =>
      have e : dedupScan sl tl (h :: rest) seen
          = (h, false) :: dedupScan sl tl rest seen := by simp [dedupScan, tuKey, htex]
      rw [e]
      simp [htex, ih]
    | some p =>
      have hkey : tuKey sl tl h = some (pairKeyStr (normalize p.1) (normalize p.2)) := by
        simp [tuKey, htex]
      by_cases hk : pairKeyStr (normalize p.1) (normalize p.2) ∈ seen
      · have e : dedupScan sl tl (h :: rest) seen
            = (h, true) :: dedupScan sl tl rest seen := by simp [dedupScan, hkey, hk]
        rw [e]
        simp [htex, ih]
      · have e : dedupScan sl tl (h :: rest) seen
            = (h, false) :: dedupScan sl tl rest
                (pairKeyStr (normalize p.1) (normalize p.2) :: seen) := by
          simp [dedupScan, hkey, hk]
        rw [e]
        simp [htex, ih]

/-- A scan over a memory whose keys are duplicate-free (and disjoint from
`seen`) flags nothing. -/
theorem dedupScan_of_nodup (sl tl : String) :
    ∀ (mem : List TU) (seen : List String),
      (mem.filterMap (tuKey sl tl)).Nodup →
      (∀ k ∈ mem.filterMap (tuKey sl tl), k ∉ seen) →
      dedupScan sl tl mem seen = mem.map fun tu => (tu, false) := by
  intro mem
  induction mem with
  | nil => intro seen _ _; rfl
  | cons h rest ih =>
    intro seen hnd hdis
    cases htex : tuKey sl tl h with
    | none =>
      have e : dedupScan sl tl (h :: rest) seen
          = (h, false) :: dedupScan sl tl rest seen := by simp [dedupScan, htex]
      rw [e, ih seen (by simpa [htex] using hnd) (fun k hk => hdis k (by simp [htex, hk]))]
      rfl
    | some k =>
      have hk : k ∉ seen := hdis k (by simp [htex])
      have e : dedupScan sl tl (h :: rest) seen
          = (h, false) :: dedupScan sl tl rest (k :: seen) := by simp [dedupScan, htex, hk]
      simp only [List.filterMap_cons, htex, List.nodup_cons] at hnd
      rw [e, ih (k :: seen) hnd.2 ?_]
      · rfl
      · intro k' hk' hmem
        rcases List.mem_cons.mp hmem with rfl | hs
        · exact hnd.1 hk'
        · exact hdis k' (by simp [htex, hk']) hs

/-- C6: after one pass of `remove_exact_duplicates`, the counts add up, no
two surviving units with non-null source share a pair key, null-source units
are untouched, and a unit is removed exactly when an earlier unit carries the
same key (so each first occurrence is kept and all later ones removed). -/
theorem remove_exact_duplicates_spec (sl tl : String) (mem : List TU) :
    (removeExactDuplicates sl tl mem).uniqueCount
        + (removeExactDuplicates sl tl mem).removedCount
      = (removeExactDuplicates sl tl mem).totalBefore
    ∧ (removeExactDuplicates sl tl mem).totalBefore = mem.length
    ∧ (((removeExactDuplicates sl tl mem).newMem).filterMap (tuKey sl tl)).Nodup
    ∧ ((removeExactDuplicates sl tl mem).newMem).filter
          (fun tu => (getTuTexts sl tl tu).isNone)
        = mem.filter (fun tu => (getTuTexts sl tl tu).isNone)
    ∧ ∀ (i : Nat) (tu : TU), mem[i]? = some tu →
        (((dedupScan sl tl mem [])[i]?.map Prod.snd = some true) ↔
          ∃ k, tuKey sl tl tu = some k ∧
            ∃ (j : Nat) (tu' : TU), j < i ∧ mem[j]? = some tu'
              ∧ tuKey sl tl tu' = some k) := by
  refine ⟨?_, rfl, ?_, ?_, ?_⟩
  · have hle : ((dedupScan sl tl mem []).filter fun p => p.2).length ≤ mem.length := by
      calc ((dedupScan sl tl mem []).filter fun p => p.2).length
          ≤ (dedupScan sl tl mem []).length := List.length_filter_le _ _
        _ = mem.length := dedupScan_length sl tl mem []
    simp only [removeExactDuplicates]
    omega
  · exact (dedupScan_kept_keys sl tl mem []).1
  · exact dedupScan_null_filter sl tl mem []
  · intro i tu hget
    have := dedupScan_flag_iff sl tl mem [] i tu hget
    simpa using this

/-- C6 witness: in the memory [("cat","gato"), ("CAT","Gato"), ("dog","perro")]
the second unit is flagged because the first carries the same normalized key. -/
theorem remove_exact_duplicates_spec_witness :
    (dedupScan "en" "fr"
        [⟨[⟨"en", some "cat"⟩, ⟨"fr", some "gato"⟩], none⟩,
         ⟨[⟨"en", some "CAT"⟩, ⟨"fr", some "Gato"⟩], none⟩,
         ⟨[⟨"en", some "dog"⟩, ⟨"fr", some "perro"⟩], none⟩] [])[1]?.map Prod.snd
      = some true :=
  ((remove_exact_duplicates_spec "en" "fr"
      [⟨[⟨"en", some "cat"⟩, ⟨"fr", some "gato"⟩], none⟩,
       ⟨[⟨"en", some "CAT"⟩, ⟨"fr", some "Gato"⟩], none⟩,
       ⟨[⟨"en", some "dog"⟩, ⟨"fr", some "perro"⟩], none⟩]).2.2.2.2 1
    ⟨[⟨"en", some "CAT"⟩, ⟨"fr", some "Gato"⟩], none⟩ (by decide)).mpr
    ⟨"cat|||gato", by decide, 0,
      ⟨[⟨"en", some "cat"⟩, ⟨"fr", some "gato"⟩], none⟩, by omega, by decide, by decide⟩

/-- C8: a second pass of `remove_exact_duplicates` immediately after a first
removes nothing and leaves the unit sequence unchanged. -/
theorem remove_exact_duplicates_idempotent (sl tl : String) (mem : List TU) :
    removeExactDuplicates sl tl (removeExactDuplicates sl tl mem).newMem
      = { newMem := (removeExactDuplicates sl tl mem).newMem
          removedCount := 0
          uniqueCount := (removeExactDuplicates sl tl mem).newMem.length
          totalBefore := (removeExactDuplicates sl tl mem).newMem.length } := by
  set kept := (removeExactDuplicates sl tl mem).newMem with hkept
  have hnd : (kept.filterMap (tuKey sl tl)).Nodup :=
    (remove_exact_duplicates_spec sl tl mem).2.2.1
  have hscan : dedupScan sl tl kept [] = kept.map fun tu => (tu, false) :=
    dedupScan_of_nodup sl tl kept [] hnd (by simp)
  have h1 : ((kept.map fun tu => (tu, false)).filter fun p => !p.2)
      = kept.map fun tu => (tu, false) := by
    rw [List.filter_eq_self]
    intro a ha
    rcases List.mem_map.mp ha with ⟨tu, _, rfl⟩
    rfl
  have h2 : ((kept.map fun tu => (tu, false)).filter fun p => p.2) = [] := by
    rw [List.filter_eq_nil_iff]
    intro a ha
    rcases List.mem_map.mp ha with ⟨tu, _, rfl⟩
    simp
  simp [removeExactDuplicates, hscan, h1, h2, List.map_map, Function.comp_def]

/-! ### C7: filter inversion -/

/-- The effective per-unit decision of `filter_tus` (proof helper): null
source excludes the unit, otherwise the ANDed criteria, negated under
`invert`. -/
def filterPred (sl tl : String) (c : FilterCriteria) (inv : Bool) (tu : TU) : Bool :=
  match getTuTexts sl tl tu with
  | none => false
  | some (s, t) => if inv then !(tuMatches c tu s t) else tuMatches c tu s t

theorem filterTus_eq (sl tl : String) (c : FilterCriteria) (inv : Bool) :
    ∀ mem : List TU, filterTus sl tl c inv mem = mem.filter (filterPred sl tl c inv) := by
  intro mem
  induction mem with
  | nil => rfl
  | cons h rest ih =>
    cases htex : getTuTexts sl tl h with
    | none => simp [filterTus, filterPred, htex, ih]
    | some p =>
      by_cases hm : tuMatches c h p.1 p.2
      · cases inv <;> simp [filterTus, filterPred, htex, hm, ih]
      · cases inv <;> simp [filterTus, filterPred, htex, hm, ih]

/-- C7: `filter_tus` with `invert=true` returns exactly the valid units that
the non-inverted call does not return, in document order; and for any value
of `invert` every returned unit has non-null source text. -/
theorem filter_tus_invert_complement (sl tl : String) (c : FilterCriteria)
    (mem : List TU) :
    filterTus sl tl c true mem
      = (mem.filter fun tu => (getTuTexts sl tl tu).isSome).filter
          (fun tu => !(decide (tu ∈ filterTus sl tl c false mem)))
    ∧ ∀ inv : Bool,
        (filterTus sl tl c inv mem).all
          (fun tu => (getTuTexts sl tl tu).isSome) = true := by
  constructor
  · rw [filterTus_eq, List.filter_filter]
    apply List.filter_congr
    intro tu htu
    cases htex : getTuTexts sl tl tu with
    | none => simp [filterPred, htex]
    | some p =>
      have hmem : tu ∈ filterTus sl tl c false mem ↔ tuMatches c tu p.1 p.2 = true := by
        rw [filterTus_eq, List.mem_filter]
        simp [filterPred, htex, htu]
      by_cases hm : tuMatches c tu p.1 p.2 <;> simp [filterPred, htex, hm, hmem]
  · intro inv
    rw [filterTus_eq, List.all_eq_true]
    intro tu htu
    have hp := (List.mem_filter.mp htu).2
    cases htex : getTuTexts sl tl tu with
    | none => rw [filterPred, htex] at hp; cases hp
    | some p => simp [htex]

/-! ### C10: extraction totality and the unreachable classifier branch -/

/-- C10: for a unit with at least two variants, `_get_tu_texts` always
returns (possibly empty) strings, so the `invalid_structure` branch of
`remove_empty_segments` is unreachable and its count is always zero. -/
theorem invalid_structure_unreachable (sl tl : String) (mem : List TU) :
    (removeEmptySegments sl tl mem).invalidStructure = 0
    ∧ ∀ tu : TU, 2 ≤ tu.tuvs.length → (getTuTexts sl tl tu).isSome = true := by
  have hsome : ∀ tu : TU, 2 ≤ tu.tuvs.length → (getTuTexts sl tl tu).isSome = true := by
    intro tu hlen
    match htv : tu.tuvs with
    | [] => rw [htv] at hlen; simp at hlen
    | [t0] => rw [htv] at hlen; simp at hlen
    | t0 :: t1 :: rest => simp [getTuTexts, htv]
  refine ⟨?_, hsome⟩
  have : mem.filter (fun tu => classifyTu sl tl tu = some .invalidStructure) = [] := by
    rw [List.filter_eq_nil_iff]
    intro tu _
    by_cases hlen : tu.tuvs.length < 2
    · simp [classifyTu, hlen]
    · have h2 : 2 ≤ tu.tuvs.length := by omega
      obtain ⟨p, hp⟩ := Option.isSome_iff_exists.mp (hsome tu h2)
      simp only [classifyTu, hlen, if_false, hp]
      split_ifs <;> simp
  simp [removeEmptySegments, this]

/-- C10 witness: the totality statement applied at a concrete two-variant
unit. -/
theorem invalid_structure_unreachable_witness :
    (getTuTexts "en" "fr" ⟨[⟨"en", some "hi"⟩, ⟨"fr", some "salut"⟩], none⟩).isSome = true :=
  (invalid_structure_unreachable "en" "fr" []).2
    ⟨[⟨"en", some "hi"⟩, ⟨"fr", some "salut"⟩], none⟩ (by decide)

/-! ### C5 and C2: merge counts and merge atomicity -/

/-- Shared concrete sample unit for witnesses: a two-variant unit with the
given source and target texts. -/
def sampleTU (s t : String) : TU := ⟨[⟨"en", some s⟩, ⟨"fr", some t⟩], none⟩

theorem tagElems_length (l : List TU) (b : Nat) : (tagElems l b).length = l.length := by
  simp [tagElems]

theorem removeFirstById_length :
    ∀ (l : List Elem) (i : Nat) (l' : List Elem),
      removeFirstById l i = some l' → l'.length + 1 = l.length := by
  intro l
  induction l with
  | nil => intro i l' h; cases h
  | cons e rest ih =>
    intro i l' h
    by_cases he : e.id = i
    · simp only [removeFirstById, he, if_true] at h
      cases h
      simp
    · simp only [removeFirstById, he, if_false, Option.map_eq_some'] at h
      obtain ⟨r, hr, rfl⟩ := h
      have := ih i r hr
      simp [← this]

/-- Length and count bookkeeping of the merge scan: on success the final body
grew by exactly the number of `added` units, and `totalAfter` is the final
body length. -/
theorem mergeLoop_total (slB tlB : String) (strat : Strategy) :
    ∀ (Bs : List Elem) (st : MergeSt) (body' : List Elem) (a' s' r' t' : Nat),
      mergeLoop slB tlB strat Bs st = .ok body' a' s' r' t' →
      body'.length + st.added = st.body.length + a' ∧ t' = body'.length := by
  intro Bs
  induction Bs with
  | nil =>
    intro st body' a' s' r' t' h
    simp only [mergeLoop, MergeOut.ok.injEq] at h
    obtain ⟨rfl, rfl, _, _, rfl⟩ := h
    omega
  | cons e rest ih =>
    intro st body' a' s' r' t' h
    rw [mergeLoop] at h
    cases htex : getTuTexts slB tlB e.tu with
    | none =>
      rw [htex] at h
      exact ih st body' a' s' r' t' h
    | some p =>
      rw [htex] at h
      simp only at h
      by_cases hpk : pairKeyStr (normalize p.1) (normalize p.2) ∈ st.pairs
      · rw [if_pos hpk] at h
        have := ih _ body' a' s' r' t' h
        simpa using this
      · rw [if_neg hpk] at h
        cases hlook : lookupA st.sources (normalize p.1) with
        | some old =>
          rw [hlook] at h
          simp only at h
          cases strat with
          | skip =>
            simp only at h
            have := ih _ body' a' s' r' t' h
            simpa using this
          | replace =>
            simp only at h
            cases hrem : removeFirstById st.body old.id with
            | none => rw [hrem] at h; simp only at h; cases h
            | some body'' =>
              rw [hrem] at h
              simp only at h
              have hlen := removeFirstById_length st.body old.id body'' hrem
              have := ih _ body' a' s' r' t' h
              simp only [List.length_append, List.length_cons, List.length_nil] at this
              constructor
              · omega
              · exact this.2
          | keepBoth =>
            simp only at h
            have := ih _ body' a' s' r' t' h
            simp only [List.length_append, List.length_cons, List.length_nil] at this
            constructor
            · omega
            · exact this.2
        | none =>
          rw [hlook] at h
          simp only at h
          have := ih _ body' a' s' r' t' h
          simp only [List.length_append, List.length_cons, List.length_nil] at this
          constructor
          · omega
          · exact this.2

/-- C5: whenever `merge_from` completes, the returned `totalAfter` equals the
original unit count of the target plus the returned `added` count. -/
theorem merge_total_after (slA tlA slB tlB : String) (A B : List TU)
    (strat : Strategy) (body' : List Elem) (a s r t : Nat)
    (h : mergeFrom slA tlA slB tlB A B strat = .ok body' a s r t) :
    t = A.length + a ∧ body'.length = A.length + a := by
  obtain ⟨h1, h2⟩ := mergeLoop_total slB tlB strat (tagElems B A.length) _ body' a s r t h
  simp only at h1 h2
  rw [tagElems_length] at h1
  exact ⟨by omega, by omega⟩

/-- C5 witness: the scenario of the specification — merging
A=[("hello","hola")] with B=[("hello","hola"),("hello","ciao")] under
`replace` completes with skipped=1, replaced=1, added=0, totalAfter=1. -/
theorem merge_total_after_witness :
    (1 : Nat) = ([sampleTU "hello" "hola"] : List TU).length + 0
    ∧ ([⟨3, sampleTU "hello" "ciao"⟩] : List Elem).length
        = ([sampleTU "hello" "hola"] : List TU).length + 0 :=
  merge_total_after "en" "fr" "en" "fr" [sampleTU "hello" "hola"]
    [sampleTU "hello" "hola", sampleTU "hello" "ciao"] .replace
    [⟨3, sampleTU "hello" "ciao"⟩] 0 1 1 1 (by decide)

/-- C2: `merge_from` is not atomic.  With A = [("a","x")] and
B = [("a","y"),("a","y")] under `replace`, the scan removes the unit of A,
appends the first unit of B, and then fails (`body.remove` raises
`ValueError`, because the source index was updated with the original incoming
element rather than the appended copy) — the body at failure differs from the
original body of A, so the operation mutated A and then raised partway. -/
theorem merge_replace_partial_mutation_bug :
    mergeFrom "en" "fr" "en" "fr" [sampleTU "a" "x"]
        [sampleTU "a" "y", sampleTU "a" "y"] .replace
      = .err [⟨3, sampleTU "a" "y"⟩]
    ∧ ([⟨(3 : Nat), sampleTU "a" "y"⟩] : List Elem) ≠ tagElems [sampleTU "a" "x"] 0 := by
  decide

/-! ### C9: each unit lands in at most one fuzzy group -/

/-- The inner scan flips a duplicate-free set of previously unmatched
candidate positions, and its emitted similar-list records exactly the unit
numbers at those positions. -/
theorem innerScan_spec (τ : ℚ) (li : Nat) (isrc : String) :
    ∀ (js : List (Nat × UT)) (m : Nat → Bool),
      ∃ F : List (Nat × UT),
        F.Sublist js
        ∧ (∀ e ∈ F, m e.1 = false)
        ∧ (∀ p, (innerScan τ li isrc js m).1 p
            = (decide (p ∈ F.map Prod.fst) || m p))
        ∧ (innerScan τ li isrc js m).2.map Sim.num = F.map fun e => e.2.num := by
  intro js
  induction js with
  | nil =>
    intro m
    exact ⟨[], List.Sublist.refl _, by simp, by simp [innerScan], by simp [innerScan]⟩
  | cons ju rest ih =>
    obtain ⟨j, u⟩ := ju
    intro m
    by_cases hm : m j = true
    · have e : innerScan τ li isrc ((j, u) :: rest) m = innerScan τ li isrc rest m := by
        simp [innerScan, hm]
      obtain ⟨F, hsub, hF, hflag, hnum⟩ := ih m
      exact ⟨F, hsub.cons _, hF, by rw [e]; exact hflag, by rw [e]; exact hnum⟩
    · by_cases hbr : 0 < li ∧ (li : ℚ) / τ < (u.src.length : ℚ)
      · have e : innerScan τ li isrc ((j, u) :: rest) m = (m, []) := by
          simp [innerScan, hm, hbr]
        exact ⟨[], by simp, by simp, by rw [e]; simp, by rw [e]; rfl⟩
      · by_cases hr : τ ≤ ratioQ (pyLower isrc) (pyLower u.src)
        · have e : innerScan τ li isrc ((j, u) :: rest) m
              = ((innerScan τ li isrc rest (Function.update m j true)).1,
                 ⟨u.num, u.src, u.tgt,
                   round1 (ratioQ (pyLower isrc) (pyLower u.src) * 100)⟩ ::
                   (innerScan τ li isrc rest (Function.update m j true)).2) := by
            simp [innerScan, hm, hbr, hr]
          obtain ⟨F, hsub, hF, hflag, hnum⟩ := ih (Function.update m j true)
          refine ⟨(j, u) :: F, hsub.cons₂ _, ?_, ?_, ?_⟩
          · intro ee hee
            rcases List.mem_cons.mp hee with rfl | hee'
            · simpa using hm
            · have := hF ee hee'
              by_cases hej : ee.1 = j
              · rw [hej, Function.update_same] at this; cases this
              · rwa [Function.update_noteq hej] at this
          · intro p
            rw [e]
            simp only
            rw [hflag p]
            by_cases hp : p = j
            · subst hp
              simp [Function.update_same, List.mem_cons]
            · have hb : (p == j) = false := by
                rw [beq_eq_false_iff_ne]
                exact hp
              simp [Function.update_noteq hp, List.mem_cons, hp, hb]
          · rw [e]
            simp only [List.map_cons]
            rw [hnum]
        · have e : innerScan τ li isrc ((j, u) :: rest) m = innerScan τ li isrc rest m := by
            simp [innerScan, hm, hbr, hr]
          obtain ⟨F, hsub, hF, hflag, hnum⟩ := ih m
          exact ⟨F, hsub.cons _, hF, by rw [e]; exact hflag, by rw [e]; exact hnum⟩

/-- The outer greedy clustering: over a candidate list with duplicate-free
positions and duplicate-free unit numbers, the similar members across all
groups come from a duplicate-free set of previously unmatched positions, and
no representative occurs in its own similar-list. -/
theorem outerScan_spec (τ : ℚ) :
    ∀ (S : List (Nat × UT)) (m : Nat → Bool),
      (S.map Prod.fst).Nodup → (S.map fun e => e.2.num).Nodup →
      (∃ F : List (Nat × UT),
        (∀ e ∈ F, e ∈ S ∧ m e.1 = false)
        ∧ (F.map Prod.fst).Nodup
        ∧ ((outerScan τ S m).flatMap fun g => g.sims.map Sim.num)
            = F.map (fun e => e.2.num))
      ∧ ∀ g ∈ outerScan τ S m, g.repNum ∉ g.sims.map Sim.num := by
  intro S
  induction S with
  | nil =>
    intro m _ _
    exact ⟨⟨[], by simp, by simp, by simp [outerScan]⟩, by simp [outerScan]⟩
  | cons iu rest ih =>
    obtain ⟨i, u⟩ := iu
    intro m hfst hnum
    have hfst' : (rest.map Prod.fst).Nodup := (List.nodup_cons.mp hfst).2
    have hnum' : (rest.map fun e => e.2.num).Nodup := (List.nodup_cons.mp hnum).2
    by_cases hm : m i = true
    · have e : outerScan τ ((i, u) :: rest) m = outerScan τ rest m := by
        simp [outerScan, hm]
      obtain ⟨⟨F, hF, hFnd, hflat⟩, hrep⟩ := ih m hfst' hnum'
      refine ⟨⟨F, fun ee hee => ⟨List.mem_cons_of_mem _ (hF ee hee).1, (hF ee hee).2⟩,
        hFnd, by rw [e]; exact hflat⟩, ?_⟩
      rw [e]
      exact hrep
    · obtain ⟨Fg, hgsub, hgF, hgflag, hgnum⟩ := innerScan_spec τ u.src.length u.src rest m
      set m' := (innerScan τ u.src.length u.src rest m).1 with hm'
      set sims := (innerScan τ u.src.length u.src rest m).2 with hsims
      obtain ⟨⟨F', hF', hF'nd, hflat'⟩, hrep'⟩ := ih m' hfst' hnum'
      by_cases hempty : sims = []
      · have e : outerScan τ ((i, u) :: rest) m = outerScan τ rest m' := by
          simp only [outerScan, hm, if_false]
          rw [← hm', ← hsims, hempty]
          simp
        refine ⟨⟨F', ?_, hF'nd, by rw [e]; exact hflat'⟩, ?_⟩
        · intro ee hee
          refine ⟨List.mem_cons_of_mem _ (hF' ee hee).1, ?_⟩
          have hm'e := (hF' ee hee).2
          rw [hgflag ee.1] at hm'e
          simpa using (Bool.or_eq_false_iff.mp hm'e).2
        · rw [e]; exact hrep'
      · have e : outerScan τ ((i, u) :: rest) m
            = ⟨u.num, u.src, u.tgt, sims⟩ :: outerScan τ rest m' := by
          simp only [outerScan, hm, if_false]
          rw [← hm', ← hsims]
          simp [hempty]
        have hFg_mem : ∀ e ∈ Fg, e ∈ rest := fun e he => hgsub.mem he
        have hdisj : ∀ p, p ∈ Fg.map Prod.fst → p ∈ F'.map Prod.fst → False := by
          intro p hp hp'
          obtain ⟨ee, hee, rfl⟩ := List.mem_map.mp hp'
          have hm'e := (hF' ee hee).2
          rw [hgflag ee.1] at hm'e
          have hnotin := (Bool.or_eq_false_iff.mp hm'e).1
          simp only [decide_eq_false_iff_not] at hnotin
          exact hnotin hp
        refine ⟨⟨Fg ++ F', ?_, ?_, ?_⟩, ?_⟩
        · intro ee hee
          rcases List.mem_append.mp hee with h1 | h2
          · exact ⟨List.mem_cons_of_mem _ (hFg_mem ee h1), hgF ee h1⟩
          · refine ⟨List.mem_cons_of_mem _ (hF' ee h2).1, ?_⟩
            have hm'e := (hF' ee h2).2
            rw [hgflag ee.1] at hm'e
            simpa using (Bool.or_eq_false_iff.mp hm'e).2
        · rw [List.map_append]
          refine List.Nodup.append ?_ hF'nd ?_
          · exact (hgsub.map Prod.fst).nodup hfst'
          · intro p hp hp'
            exact hdisj p hp hp'
        · rw [e]
          simp only [List.flatMap_cons]
          rw [hgnum, hflat', List.map_append]
        · rw [e]
          intro g hg
          rcases List.mem_cons.mp hg with rfl | hg'
          · simp only
            rw [hgnum]
            intro hmem
            obtain ⟨ee, hee, heq⟩ := List.mem_map.mp hmem
            have : ee ∈ rest := hFg_mem ee hee
            have hin : u.num ∈ rest.map fun e => e.2.num :=
              List.mem_map.mpr ⟨ee, this, heq⟩
            exact (List.nodup_cons.mp hnum).1 hin
          · exact hrep' g hg'

/-- Any unit produced by the extraction pass starting at position `n` has
number at least `n + 1`. -/
theorem tuDataF_lb (sl tl : String) :
    ∀ (l : List TU) (n : Nat) (u : UT),
      u ∈ (List.enumFrom n l).filterMap (tuDataF sl tl) → n + 1 ≤ u.num := by
  intro l
  induction l with
  | nil => intro n u h; simp at h
  | cons h t ih =>
    intro n u hm
    rw [show List.enumFrom n (h :: t) = (n, h) :: List.enumFrom (n + 1) t from rfl,
      List.filterMap_cons] at hm
    cases hf : tuDataF sl tl (n, h) with
    | none =>
      rw [hf] at hm
      have := ih (n + 1) u hm
      omega
    | some u0 =>
      rw [hf] at hm
      rcases List.mem_cons.mp hm with rfl | hm'
      · have : u.num = n + 1 := by
          unfold tuDataF at hf
          split at hf
          · split at hf
            · cases hf; rfl
            · cases hf
          · cases hf
        omega
      · have := ih (n + 1) u hm'
        omega

/-- Unit numbers produced by the extraction pass are strictly increasing. -/
theorem tuDataF_pairwise (sl tl : String) :
    ∀ (l : List TU) (n : Nat),
      List.Pairwise (· < ·)
        (((List.enumFrom n l).filterMap (tuDataF sl tl)).map UT.num) := by
  intro l
  induction l with
  | nil => intro n; simp
  | cons h t ih =>
    intro n
    rw [show List.enumFrom n (h :: t) = (n, h) :: List.enumFrom (n + 1) t from rfl,
      List.filterMap_cons]
    cases hf : tuDataF sl tl (n, h) with
    | none => exact ih (n + 1)
    | some u0 =>
      have hnum : u0.num = n + 1 := by
        unfold tuDataF at hf
        split at hf
        · split at hf
          · cases hf; rfl
          · cases hf
        · cases hf
      rw [List.map_cons]
      refine List.Pairwise.cons ?_ (ih (n + 1))
      intro v hv
      obtain ⟨u', hu', rfl⟩ := List.mem_map.mp hv
      have := tuDataF_lb sl tl t (n + 1) u' hu'
      omega

theorem tuData_num_nodup (sl tl : String) (mem : List TU) :
    ((tuData sl tl mem).map UT.num).Nodup := by
  have := tuDataF_pairwise sl tl mem 0
  exact this.imp (fun h => Nat.ne_of_lt h)

theorem uniqueBySource_sublist :
    ∀ (l : List UT) (seen : List String), (uniqueBySource l seen).Sublist l := by
  intro l
  induction l with
  | nil => intro seen; simp [uniqueBySource]
  | cons u rest ih =>
    intro seen
    by_cases hs : normalize u.src ∈ seen
    · rw [show uniqueBySource (u :: rest) seen = uniqueBySource rest seen by
        simp [uniqueBySource, hs]]
      exact (ih seen).cons _
    · rw [show uniqueBySource (u :: rest) seen
          = u :: uniqueBySource rest (normalize u.src :: seen) by
        simp [uniqueBySource, hs]]
      exact (ih _).cons₂ _

theorem insSorted_perm (u : UT) : ∀ l : List UT, (insSorted u l).Perm (u :: l) := by
  intro l
  induction l with
  | nil => simp [insSorted]
  | cons v rest ih =>
    by_cases hlt : u.src.length < v.src.length
    · simp [insSorted, hlt]
    · rw [show insSorted u (v :: rest) = v :: insSorted u rest by simp [insSorted, hlt]]
      exact (ih.cons v).trans (List.Perm.swap u v rest)

theorem sortByLen_core :
    ∀ (l acc : List UT), (l.foldl (fun acc u => insSorted u acc) acc).Perm (acc ++ l) := by
  intro l
  induction l with
  | nil => intro acc; simp
  | cons u rest ih =>
    intro acc
    have h1 := ih (insSorted u acc)
    have h2 : (insSorted u acc ++ rest).Perm (acc ++ u :: rest) := by
      have h3 := (insSorted_perm u acc).append_right rest
      refine h3.trans ?_
      rw [List.cons_append]
      exact List.perm_middle.symm
    exact h1.trans h2

theorem sortByLen_perm (l : List UT) : (sortByLen l).Perm l := by
  have := sortByLen_core l []
  simpa [sortByLen] using this

/-- C9: in the groups returned by `find_fuzzy_duplicates`, every unit occurs
as a similar member of at most one group (the flattened similar unit numbers
are duplicate-free), and no representative appears in its own similar-list. -/
theorem fuzzy_groups_disjoint (sl tl : String) (τ : ℚ) (mem : List TU) :
    ((findFuzzyDuplicates sl tl τ mem).flatMap fun g => g.sims.map Sim.num).Nodup
    ∧ ((findFuzzyDuplicates sl tl τ mem).all
        fun g => !(decide (g.repNum ∈ g.sims.map Sim.num))) = true := by
  have hXnum : ((sortByLen (uniqueBySource (tuData sl tl mem) [])).map UT.num).Nodup := by
    have hsub : ((uniqueBySource (tuData sl tl mem) []).map UT.num).Sublist
        ((tuData sl tl mem).map UT.num) :=
      (uniqueBySource_sublist (tuData sl tl mem) []).map UT.num
    have hU : ((uniqueBySource (tuData sl tl mem) []).map UT.num).Nodup :=
      (tuData_num_nodup sl tl mem).sublist hsub
    exact (((sortByLen_perm (uniqueBySource (tuData sl tl mem) [])).map UT.num).nodup_iff).mpr hU
  set S := (sortByLen (uniqueBySource (tuData sl tl mem) [])).enum with hS
  have h1 : (S.map Prod.fst).Nodup := by
    rw [hS, List.enum_map_fst]
    exact List.nodup_range _
  have h2 : (S.map fun e => e.2.num).Nodup := by
    have : (S.map fun e => e.2.num) = (S.map Prod.snd).map UT.num := by
      simp [Function.comp]
    rw [this, hS, List.enum_map_snd]
    exact hXnum
  obtain ⟨⟨F, hF, hFnd, hflat⟩, hrep⟩ := outerScan_spec τ S (fun _ => false) h1 h2
  constructor
  · show ((outerScan τ S fun _ => false).flatMap fun g => g.sims.map Sim.num).Nodup
    rw [hflat]
    have hFnodup : F.Nodup := hFnd.of_map
    refine hFnodup.map_on ?_
    intro x hx y hy hxy
    exact List.inj_on_of_nodup_map h2 (hF x hx).1 (hF y hy).1 hxy
  · rw [List.all_eq_true]
    intro g hg
    simpa using hrep g hg

/-! ### C1: the length-ratio early exit -/

/-- A well-placed match: inside the `a`-window and the `b`-window. -/
def MatchOK (alo ahi blo bhi : Nat) (m : Nat × Nat × Nat) : Prop :=
  alo ≤ m.1 ∧ m.1 + m.2.2 ≤ ahi ∧ blo ≤ m.2.1 ∧ m.2.1 + m.2.2 ≤ bhi

/-- Row-fold invariant of `find_longest_match`: diagonal runs recorded for
row `alo + c` are bounded by the window start and by the row count, and the
best match stays inside the windows. -/
theorem flmStep_fold_inv (blo bhi i alo ahi c : Nat) (f : Nat → Nat)
    (hf : ∀ j, f j ≠ 0 → blo ≤ j ∧ j < bhi ∧ f j ≤ j + 1 - blo ∧ f j ≤ c)
    (hi : i = alo + c) (hiahi : i < ahi) :
    ∀ (js : List Nat) (acc : (Nat → Nat) × (Nat × Nat × Nat)),
      (∀ j ∈ js, blo ≤ j ∧ j < bhi) →
      (∀ j, acc.1 j ≠ 0 → blo ≤ j ∧ j < bhi ∧ acc.1 j ≤ j + 1 - blo ∧ acc.1 j ≤ c + 1) →
      MatchOK alo ahi blo bhi acc.2 →
      (∀ j, (js.foldl (flmStep i f) acc).1 j ≠ 0 →
          blo ≤ j ∧ j < bhi ∧ (js.foldl (flmStep i f) acc).1 j ≤ j + 1 - blo
            ∧ (js.foldl (flmStep i f) acc).1 j ≤ c + 1)
      ∧ MatchOK alo ahi blo bhi (js.foldl (flmStep i f) acc).2 := by
  intro js
  induction js with
  | nil => intro acc _ hacc hbest; exact ⟨hacc, hbest⟩
  | cons j js ih =>
    intro acc hjs hacc hbest
    have hj := hjs j (List.mem_cons_self _ _)
    set kj := (if j = 0 then 1 else f (j - 1) + 1) with hkj
    have hk1 : kj ≤ j + 1 - blo := by
      by_cases hj0 : j = 0
      · have : blo = 0 := by omega
        simp [hkj, hj0, this]
      · rw [hkj, if_neg hj0]
        by_cases hz : f (j - 1) = 0
        · rw [hz]; omega
        · have := hf (j - 1) hz
          omega
    have hk2 : kj ≤ c + 1 := by
      by_cases hj0 : j = 0
      · simp [hkj, hj0]
      · rw [hkj, if_neg hj0]
        by_cases hz : f (j - 1) = 0
        · rw [hz]; omega
        · have := hf (j - 1) hz
          omega
    have hfst : (flmStep i f acc j).1 = Function.update acc.1 j kj := by
      simp only [flmStep, ← hkj]
      split <;> rfl
    have hsnd : (flmStep i f acc j).2 = (i + 1 - kj, j + 1 - kj, kj)
        ∨ (flmStep i f acc j).2 = acc.2 := by
      simp only [flmStep, ← hkj]
      split
      · left; rfl
      · right; rfl
    rw [List.foldl_cons]
    apply ih
    · exact fun j' hj' => hjs j' (List.mem_cons_of_mem _ hj')
    · intro j' hne
      rw [hfst] at hne ⊢
      by_cases hjj : j' = j
      · subst hjj
        rw [Function.update_same] at hne ⊢
        exact ⟨hj.1, hj.2, hk1, hk2⟩
      · rw [Function.update_noteq hjj] at hne ⊢
        exact hacc j' hne
    · rcases hsnd with h | h
      · rw [h]
        exact ⟨by show alo ≤ i + 1 - kj; omega,
          by show (i + 1 - kj) + kj ≤ ahi; omega,
          by show blo ≤ j + 1 - kj; omega,
          by show (j + 1 - kj) + kj ≤ bhi; omega⟩
      · rw [h]; exact hbest

/-- Rows invariant of `find_longest_match`. -/
theorem flmRows_inv (a b : List Char) (blo bhi alo ahi : Nat) :
    ∀ (n i c : Nat) (f : Nat → Nat) (best : Nat × Nat × Nat),
      i = alo + c → i + n ≤ ahi →
      (∀ j, f j ≠ 0 → blo ≤ j ∧ j < bhi ∧ f j ≤ j + 1 - blo ∧ f j ≤ c) →
      MatchOK alo ahi blo bhi best →
      MatchOK alo ahi blo bhi (flmRows a b blo bhi i n f best) := by
  intro n
  induction n with
  | zero => intro i c f best _ _ _ hbest; exact hbest
  | succ n ih =>
    intro i c f best hi hn hf hbest
    rw [flmRows]
    have hrow := flmStep_fold_inv blo bhi i alo ahi c f hf hi (by omega)
      (((b2j b (a.getD i default)).takeWhile (· < bhi)).filter (blo ≤ ·))
      ((fun _ => 0), best)
      (by
        intro j hj
        have h1 := List.mem_filter.mp hj
        have h3 : decide (blo ≤ j) = true := h1.2
        have h4 : decide (j < bhi) = true :=
          List.mem_takeWhile_imp (p := fun x => decide (x < bhi)) h1.1
        exact ⟨of_decide_eq_true h3, of_decide_eq_true h4⟩)
      (by intro j hj; simp at hj)
      hbest
    exact ih (i + 1) (c + 1) _ _ (by omega) (by omega) hrow.1 hrow.2

/-- The downward extension keeps the match inside the windows and preserves
both end positions. -/
theorem extLow_ok (a b : List Char) (alo blo : Nat) :
    ∀ (fuel bi bj k : Nat), alo ≤ bi → blo ≤ bj →
      alo ≤ (extLow a b alo blo fuel bi bj k).1
      ∧ blo ≤ (extLow a b alo blo fuel bi bj k).2.1
      ∧ (extLow a b alo blo fuel bi bj k).1 + (extLow a b alo blo fuel bi bj k).2.2 = bi + k
      ∧ (extLow a b alo blo fuel bi bj k).2.1 + (extLow a b alo blo fuel bi bj k).2.2 = bj + k := by
  intro fuel
  induction fuel with
  | zero => intro bi bj k h1 h2; exact ⟨h1, h2, rfl, rfl⟩
  | succ fuel ih =>
    intro bi bj k h1 h2
    rw [extLow]
    split
    · rename_i hcond
      have := ih (bi - 1) (bj - 1) (k + 1) (by omega) (by omega)
      refine ⟨this.1, this.2.1, ?_, ?_⟩ <;> omega
    · exact ⟨h1, h2, rfl, rfl⟩

/-- The upward extension keeps the end of the match inside the windows. -/
theorem extHigh_ok (a b : List Char) (ahi bhi : Nat) :
    ∀ (fuel bi bj k : Nat), bi + k ≤ ahi → bj + k ≤ bhi →
      (extHigh a b ahi bhi fuel bi bj k).1 = bi
      ∧ (extHigh a b ahi bhi fuel bi bj k).2.1 = bj
      ∧ (extHigh a b ahi bhi fuel bi bj k).1 + (extHigh a b ahi bhi fuel bi bj k).2.2 ≤ ahi
      ∧ (extHigh a b ahi bhi fuel bi bj k).2.1 + (extHigh a b ahi bhi fuel bi bj k).2.2 ≤ bhi := by
  intro fuel
  induction fuel with
  | zero => intro bi bj k h1 h2; exact ⟨rfl, rfl, h1, h2⟩
  | succ fuel ih =>
    intro bi bj k h1 h2
    rw [extHigh]
    split
    · rename_i hcond
      exact ih bi bj (k + 1) (by omega) (by omega)
    · exact ⟨rfl, rfl, h1, h2⟩

/-- `find_longest_match` returns a match inside the requested windows. -/
theorem findLongestMatch_ok (a b : List Char) (alo ahi blo bhi : Nat)
    (h1 : alo ≤ ahi) (h2 : blo ≤ bhi) :
    MatchOK alo ahi blo bhi (findLongestMatch a b alo ahi blo bhi) := by
  unfold findLongestMatch
  have hrows := flmRows_inv a b blo bhi alo ahi (ahi - alo) alo 0 (fun _ => 0)
    (alo, blo, 0) rfl (by omega) (by intro j hj; simp at hj)
    ⟨Nat.le_refl _, by simpa using h1, Nat.le_refl _, by simpa using h2⟩
  set best := flmRows a b blo bhi alo (ahi - alo) (fun _ => 0) (alo, blo, 0) with hbest
  obtain ⟨hb1, hb2, hb3, hb4⟩ := hrows
  have hlow := extLow_ok a b alo blo best.1 best.1 best.2.1 best.2.2 hb1 hb3
  set low := extLow a b alo blo best.1 best.1 best.2.1 best.2.2 with hlowdef
  obtain ⟨hl1, hl2, hl3, hl4⟩ := hlow
  have hhigh := extHigh_ok a b ahi bhi ahi low.1 low.2.1 low.2.2
    (by omega) (by omega)
  obtain ⟨he1, he2, he3, he4⟩ := hhigh
  refine ⟨?_, he3, ?_, he4⟩
  · rw [he1]; exact hl1
  · rw [he2]; exact hl2

/-- The total size of the matching blocks is bounded by both window sizes. -/
theorem matchingBlocksRec_le (a b : List Char) :
    ∀ (fuel alo ahi blo bhi : Nat), alo ≤ ahi → blo ≤ bhi →
      ((matchingBlocksRec a b fuel alo ahi blo bhi).map (fun m => m.2.2)).sum ≤ ahi - alo
      ∧ ((matchingBlocksRec a b fuel alo ahi blo bhi).map (fun m => m.2.2)).sum ≤ bhi - blo := by
  intro fuel
  induction fuel with
  | zero => intro alo ahi blo bhi _ _; simp [matchingBlocksRec]
  | succ fuel ih =>
    intro alo ahi blo bhi h1 h2
    rw [matchingBlocksRec]
    by_cases hz : (findLongestMatch a b alo ahi blo bhi).2.2 = 0
    · rw [if_pos hz]
      simp
    · rw [if_neg hz]
      obtain ⟨hm1, hm2, hm3, hm4⟩ := findLongestMatch_ok a b alo ahi blo bhi h1 h2
      set m := findLongestMatch a b alo ahi blo bhi with hm
      have ihl := ih alo m.1 blo m.2.1 hm1 hm3
      have ihr := ih (m.1 + m.2.2) ahi (m.2.1 + m.2.2) bhi hm2 hm4
      simp only [List.map_append, List.sum_append, List.map_cons, List.sum_cons]
      constructor <;> omega

/-- `matches` never exceeds either sequence length. -/
theorem matchesTotal_le (a b : List Char) :
    matchesTotal a b ≤ a.length ∧ matchesTotal a b ≤ b.length := by
  have := matchingBlocksRec_le a b (a.length + 1) 0 a.length 0 b.length
    (Nat.zero_le _) (Nat.zero_le _)
  unfold matchesTotal
  omega

theorem pyLower_data_length (s : String) : (pyLower s).data.length = s.length := by
  show (s.data.map Char.toLower).length = s.length
  rw [List.length_map]
  rfl

unseal Rat.mul Rat.inv Rat.add in
/-- C1 counterexample: the length-ratio early exit is not equivalence
preserving.  At τ = 0.7 over the sources "ab" and "abc", the pruned scan
returns no group while the same clustering without the early exit groups
them; the skipped pair satisfies the break condition
(`len_i > 0` and `len_j > len_i / τ`) yet its ratio 0.8 is at least τ. -/
theorem fuzzy_break_not_equivalent_cx :
    findFuzzyDuplicates "en" "fr" (7/10) [sampleTU "ab" "x", sampleTU "abc" "y"] = []
    ∧ findFuzzyDuplicatesNoBreak "en" "fr" (7/10)
        [sampleTU "ab" "x", sampleTU "abc" "y"] ≠ []
    ∧ 0 < ("ab" : String).length
    ∧ ((("ab" : String).length : ℚ) / (7/10) < ((("abc" : String).length : Nat) : ℚ))
    ∧ (7/10 : ℚ) ≤ ratioQ (pyLower "ab") (pyLower "abc") := by
  decide

/-- C1 (amended): every pair `(i, j)` skipped by the break satisfies
`len_j > len_i / τ`, which bounds its SequenceMatcher ratio strictly below
`2τ/(1+τ)` — but not below τ, so the pruned clustering may differ from the
clustering without the early exit. -/
theorem fuzzy_break_skipped_ratio_bound (a b : String) (τ : ℚ)
    (hτ0 : 0 < τ) (hlen : 0 < a.length)
    (hbr : (a.length : ℚ) / τ < (b.length : ℚ)) :
    ratioQ (pyLower a) (pyLower b) < 2 * τ / (1 + τ) := by
  have hla : ((pyLower a).data.length : ℚ) = (a.length : ℚ) := by
    rw [pyLower_data_length]
  have hlb : ((pyLower b).data.length : ℚ) = (b.length : ℚ) := by
    rw [pyLower_data_length]
  have hM : (matchesTotal (pyLower a).data (pyLower b).data : ℚ)
      ≤ (a.length : ℚ) := by
    have := (matchesTotal_le (pyLower a).data (pyLower b).data).1
    have h2 : matchesTotal (pyLower a).data (pyLower b).data ≤ a.length := by
      calc matchesTotal (pyLower a).data (pyLower b).data
          ≤ (pyLower a).data.length := this
        _ = a.length := pyLower_data_length a
    exact_mod_cast h2
  have hlbpos : (0 : ℚ) < (b.length : ℚ) := by
    have hq : (0 : ℚ) ≤ (a.length : ℚ) / τ := by
      apply div_nonneg
      · exact_mod_cast Nat.zero_le _
      · exact le_of_lt hτ0
    linarith
  have hlapos : (0 : ℚ) < (a.length : ℚ) := by exact_mod_cast hlen
  have hsum : (0 : ℚ) < (a.length : ℚ) + (b.length : ℚ) := by linarith
  have hne : (pyLower a).data.length + (pyLower b).data.length ≠ 0 := by
    have : a.length ≤ (pyLower a).data.length + (pyLower b).data.length := by
      rw [pyLower_data_length]
      omega
    omega
  have hval : ratioQ (pyLower a) (pyLower b)
      = (2 * matchesTotal (pyLower a).data (pyLower b).data : ℚ)
          / ((a.length : ℚ) + (b.length : ℚ)) := by
    rw [ratioQ, if_neg hne]
    rw [show (((pyLower a).data.length : ℚ) + ((pyLower b).data.length : ℚ))
        = (a.length : ℚ) + (b.length : ℚ) by rw [hla, hlb]]
  rw [hval]
  have hstep1 : (2 * matchesTotal (pyLower a).data (pyLower b).data : ℚ)
      / ((a.length : ℚ) + (b.length : ℚ))
      ≤ 2 * (a.length : ℚ) / ((a.length : ℚ) + (b.length : ℚ)) :=
    (div_le_div_iff_of_pos_right hsum).mpr (by linarith [hM])
  have hstep2 : 2 * (a.length : ℚ) / ((a.length : ℚ) + (b.length : ℚ))
      < 2 * τ / (1 + τ) := by
    rw [div_lt_div_iff₀ hsum (by linarith : (0 : ℚ) < 1 + τ)]
    have hlt : (a.length : ℚ) < τ * (b.length : ℚ) := by
      rw [div_lt_iff₀ hτ0] at hbr
      linarith
    nlinarith [hlt, hlapos, hτ0]
  exact lt_of_le_of_lt hstep1 hstep2

unseal Rat.mul Rat.inv Rat.add in
/-- C1 (amended) witness: the bound applied to the concrete skipped pair
("ab", "abc") at τ = 0.7. -/
theorem fuzzy_break_skipped_ratio_bound_witness :
    ratioQ (pyLower "ab") (pyLower "abc") < 2 * (7/10) / (1 + 7/10) :=
  fuzzy_break_skipped_ratio_bound "ab" "abc" (7/10)
    (by decide) (by decide) (by decide)

/-! ### C4: merge with strategy `replace` -/

/-- The normalized source of a tagged element, `none` when text extraction
fails. -/
def elemNS (sl tl : String) (e : Elem) : Option String :=
  (getTuTexts sl tl e.tu).map fun p => normalize p.1

/-- A candidate of the source memory that conflicts at source `ns`: it
carries that normalized source and its pair key is not among the target
memory pair keys. -/
def conflB (sl tl : String) (pairsA : List String) (ns : String) (e : Elem) : Bool :=
  match getTuTexts sl tl e.tu with
  | some (s, t) =>
    decide (normalize s = ns) &&
      !(decide (pairKeyStr (normalize s) (normalize t) ∈ pairsA))
  | none => false

theorem lookupA_cons (k : String) (v : Elem) (m : List (String × Elem)) (ns : String) :
    lookupA ((k, v) :: m) ns = if k = ns then some v else lookupA m ns := by
  by_cases h : k = ns <;> simp [lookupA, List.find?_cons, h]

theorem insertS_mem (s : List String) (k k' : String) :
    k ∈ insertS s k' ↔ k = k' ∨ k ∈ s := by
  by_cases h : k' ∈ s
  · simp only [insertS, if_pos h]
    constructor
    · exact Or.inr
    · rintro (rfl | hk)
      · exact h
      · exact hk
  · simp only [insertS, if_neg h]
    simp [List.mem_cons]

theorem mem_insertS_of_mem (s : List String) (k k' : String) (h : k ∈ s) :
    k ∈ insertS s k' := (insertS_mem s k k').mpr (Or.inr h)

/-- Membership characterization of the pair-key set built from a body. -/
theorem buildIndex_pairs_mem (sl tl : String) :
    ∀ (l : List Elem) (acc : List String × List (String × Elem)) (k : String),
      (k ∈ (l.foldl (fun acc e =>
          match getTuTexts sl tl e.tu with
          | none => acc
          | some (src, tgt) =>
            (insertS acc.1 (pairKeyStr (normalize src) (normalize tgt)),
             (normalize src, e) :: acc.2)) acc).1
        ↔ k ∈ acc.1 ∨ ∃ e ∈ l, ∃ s t, getTuTexts sl tl e.tu = some (s, t)
            ∧ k = pairKeyStr (normalize s) (normalize t)) := by
  intro l
  induction l with
  | nil => intro acc k; simp
  | cons e0 rest ih =>
    intro acc k
    rw [List.foldl_cons]
    cases htex : getTuTexts sl tl e0.tu with
    | none =>
      simp only []
      rw [ih acc k]
      constructor
      · rintro (h | ⟨e, he, s, t, hst, hk⟩)
        · exact Or.inl h
        · exact Or.inr ⟨e, List.mem_cons_of_mem _ he, s, t, hst, hk⟩
      · rintro (h | ⟨e, he, s, t, hst, hk⟩)
        · exact Or.inl h
        · rcases List.mem_cons.mp he with rfl | he'
          · rw [htex] at hst; cases hst
          · exact Or.inr ⟨e, he', s, t, hst, hk⟩
    | some p =>
      simp only []
      rw [ih _ k]
      simp only [insertS_mem]
      constructor
      · rintro ((rfl | h) | ⟨e, he, s, t, hst, hk⟩)
        · exact Or.inr ⟨e0, List.mem_cons_self _ _, p.1, p.2, by rw [htex], rfl⟩
        · exact Or.inl h
        · exact Or.inr ⟨e, List.mem_cons_of_mem _ he, s, t, hst, hk⟩
      · rintro (h | ⟨e, he, s, t, hst, hk⟩)
        · exact Or.inl (Or.inr h)
        · rcases List.mem_cons.mp he with rfl | he'
          · rw [htex] at hst
            cases hst
            exact Or.inl (Or.inl hk)
          · exact Or.inr ⟨e, he', s, t, hst, hk⟩

/-- Lookup characterization of the source index built from a body: the last
unit with the given normalized source wins (dict overwrite). -/
theorem buildIndex_sources_lookup (sl tl : String) :
    ∀ (l : List Elem) (acc : List String × List (String × Elem)) (ns : String),
      lookupA (l.foldl (fun acc e =>
          match getTuTexts sl tl e.tu with
          | none => acc
          | some (src, tgt) =>
            (insertS acc.1 (pairKeyStr (normalize src) (normalize tgt)),
             (normalize src, e) :: acc.2)) acc).2 ns
        = match (l.filter fun e => decide (elemNS sl tl e = some ns)).getLast? with
          | some e => some e
          | none => lookupA acc.2 ns := by
  intro l
  induction l with
  | nil => intro acc ns; simp
  | cons e0 rest ih =>
    intro acc ns
    rw [List.foldl_cons]
    cases htex : getTuTexts sl tl e0.tu with
    | none =>
      simp only []
      rw [ih acc ns]
      have : (decide (elemNS sl tl e0 = some ns)) = false := by
        simp [elemNS, htex]
      rw [List.filter_cons, this]
      simp
    | some p =>
      simp only []
      rw [ih _ ns]
      by_cases hns : normalize p.1 = ns
      · have hdec : (decide (elemNS sl tl e0 = some ns)) = true := by
          simp [elemNS, htex, hns]
        have hfc : (e0 :: rest).filter (fun e => decide (elemNS sl tl e = some ns))
            = e0 :: rest.filter (fun e => decide (elemNS sl tl e = some ns)) := by
          rw [List.filter_cons]
          simp [hdec]
        rw [hfc]
        cases hlast : (rest.filter fun e => decide (elemNS sl tl e = some ns)).getLast? with
        | some e =>
          have hne : (rest.filter fun e => decide (elemNS sl tl e = some ns)) ≠ [] := by
            intro h
            rw [h] at hlast
            simp at hlast
          obtain ⟨x, L', hxL⟩ := List.exists_cons_of_ne_nil hne
          rw [hxL] at hlast
          rw [hxL, List.getLast?_cons_cons, hlast]
        | none =>
          have hnil : (rest.filter fun e => decide (elemNS sl tl e = some ns)) = [] := by
            rwa [List.getLast?_eq_none_iff] at hlast
          rw [hnil]
          simp [lookupA_cons, hns]
      · have hdec : (decide (elemNS sl tl e0 = some ns)) = false := by
          simp [elemNS, htex, hns]
        have hfc : (e0 :: rest).filter (fun e => decide (elemNS sl tl e = some ns))
            = rest.filter (fun e => decide (elemNS sl tl e = some ns)) := by
          rw [List.filter_cons]
          simp [hdec]
        rw [hfc, lookupA_cons, if_neg hns]

/-- With duplicate-free normalized sources, at most one element carries any
given source. -/
theorem filter_ns_length_le_one (sl tl : String) :
    ∀ (l : List Elem), ((l.filterMap (elemNS sl tl)).Nodup) →
      ∀ ns, (l.filter fun e => decide (elemNS sl tl e = some ns)).length ≤ 1 := by
  intro l
  induction l with
  | nil => intro _ ns; simp
  | cons e0 rest ih =>
    intro hnd ns
    cases hns : elemNS sl tl e0 with
    | none =>
      have hfc : (e0 :: rest).filter (fun e => decide (elemNS sl tl e = some ns))
          = rest.filter (fun e => decide (elemNS sl tl e = some ns)) := by
        rw [List.filter_cons]
        simp [hns]
      rw [hfc]
      refine ih ?_ ns
      simpa [List.filterMap_cons, hns] using hnd
    | some m =>
      simp only [List.filterMap_cons, hns, List.nodup_cons] at hnd
      by_cases hm : m = ns
      · subst hm
        have hfc : (e0 :: rest).filter (fun e => decide (elemNS sl tl e = some m))
            = e0 :: rest.filter (fun e => decide (elemNS sl tl e = some m)) := by
          rw [List.filter_cons]
          simp [hns]
        rw [hfc]
        have hrest : rest.filter (fun e => decide (elemNS sl tl e = some m)) = [] := by
          rw [List.filter_eq_nil_iff]
          intro e he
          simp only [decide_eq_true_eq]
          intro heq
          exact hnd.1 (List.mem_filterMap.mpr ⟨e, he, heq⟩)
        rw [hrest]
        simp
      · have hfc : (e0 :: rest).filter (fun e => decide (elemNS sl tl e = some ns))
            = rest.filter (fun e => decide (elemNS sl tl e = some ns)) := by
          rw [List.filter_cons]
          simp [hns, hm]
        rw [hfc]
        exact ih hnd.2 ns

theorem getLast?_eq_head?_of_le_one {α : Type} :
    ∀ (l : List α), l.length ≤ 1 → l.getLast? = l.head? := by
  intro l
  match l with
  | [] => intro _; rfl
  | [a] => intro _; rfl
  | a :: b :: rest => intro h; simp at h

/-- Identity-based removal of a present element with duplicate-free ids
removes exactly that element. -/
theorem removeFirstById_of_mem :
    ∀ (l : List Elem) (x : Elem), (l.map Elem.id).Nodup → x ∈ l →
      ∃ l1 l2, l = l1 ++ x :: l2 ∧ removeFirstById l x.id = some (l1 ++ l2) := by
  intro l
  induction l with
  | nil => intro x _ hx; simp at hx
  | cons e rest ih =>
    intro x hnd hx
    by_cases he : e.id = x.id
    · have hex : e = x := by
        rcases List.mem_cons.mp hx with rfl | hx'
        · rfl
        · exfalso
          simp only [List.map_cons, List.nodup_cons] at hnd
          exact hnd.1 (he ▸ List.mem_map.mpr ⟨x, hx', rfl⟩)
      subst hex
      exact ⟨[], rest, rfl, by simp [removeFirstById, he]⟩
    · have hx' : x ∈ rest := by
        rcases List.mem_cons.mp hx with rfl | hx'
        · exact absurd rfl he
        · exact hx'
      simp only [List.map_cons, List.nodup_cons] at hnd
      obtain ⟨l1, l2, hsplit, hrem⟩ := ih x hnd.2 hx'
      refine ⟨e :: l1, l2, by rw [hsplit]; rfl, ?_⟩
      simp [removeFirstById, he, hrem]

/-- Identity-based removal fails when no element carries the id. -/
theorem removeFirstById_none :
    ∀ (l : List Elem) (i : Nat), (∀ x ∈ l, x.id ≠ i) → removeFirstById l i = none := by
  intro l
  induction l with
  | nil => intro i _; rfl
  | cons e rest ih =>
    intro i h
    have he : e.id ≠ i := h e (List.mem_cons_self _ _)
    simp only [removeFirstById, he, if_false]
    rw [ih i (fun x hx => h x (List.mem_cons_of_mem _ hx))]
    rfl

theorem tagElems_id_bounds (l : List TU) (b : Nat) :
    ∀ e ∈ tagElems l b, b ≤ e.id ∧ e.id < b + l.length := by
  intro e he
  obtain ⟨p, hp, rfl⟩ := List.mem_map.mp he
  have h1 : p.1 ∈ l.enum.map Prod.fst := List.mem_map.mpr ⟨p, hp, rfl⟩
  rw [List.enum_map_fst] at h1
  have h2 := List.mem_range.mp h1
  show b ≤ b + p.1 ∧ b + p.1 < b + l.length
  omega

theorem tagElems_ids_nodup (l : List TU) (b : Nat) :
    ((tagElems l b).map Elem.id).Nodup := by
  have : (tagElems l b).map Elem.id = (List.range l.length).map (b + ·) := by
    rw [tagElems, List.map_map, ← List.enum_map_fst l, List.map_map]
    rfl
  rw [this]
  exact (List.nodup_range _).map fun x y h => by omega

theorem tagElems_mem_of_mem :
    ∀ (l : List TU) (b : Nat) (tu : TU), tu ∈ l →
      ∃ e, e ∈ tagElems l b ∧ e.tu = tu := by
  intro l b tu hm
  obtain ⟨i, hi, rfl⟩ := List.mem_iff_getElem.mp hm
  refine ⟨⟨b + i, l[i]⟩, ?_, rfl⟩
  have hlen : i < (tagElems l b).length := by simpa [tagElems] using hi
  have : (tagElems l b).get ⟨i, hlen⟩ = ⟨b + i, l[i]⟩ := by
    simp [tagElems, List.getElem_map, List.getElem_enum]
  rw [← this]
  exact List.get_mem _ _ _

/-- Every entry of the built source index is an element of the body it was
built from. -/
theorem buildIndex_sources_mem (sl tl : String) :
    ∀ (l : List Elem) (acc : List String × List (String × Elem)) (q : String × Elem),
      q ∈ (l.foldl (fun acc e =>
          match getTuTexts sl tl e.tu with
          | none => acc
          | some (src, tgt) =>
            (insertS acc.1 (pairKeyStr (normalize src) (normalize tgt)),
             (normalize src, e) :: acc.2)) acc).2 →
      q ∈ acc.2 ∨ q.2 ∈ l := by
  intro l
  induction l with
  | nil => intro acc q h; exact Or.inl h
  | cons e0 rest ih =>
    intro acc q h
    rw [List.foldl_cons] at h
    cases htex : getTuTexts sl tl e0.tu with
    | none =>
      rw [htex] at h
      rcases ih acc q h with h1 | h2
      · exact Or.inl h1
      · exact Or.inr (List.mem_cons_of_mem _ h2)
    | some p =>
      rw [htex] at h
      rcases ih _ q h with h1 | h2
      · rcases List.mem_cons.mp h1 with rfl | h1'
        · exact Or.inr (List.mem_cons_self _ _)
        · exact Or.inl h1'
      · exact Or.inr (List.mem_cons_of_mem _ h2)

theorem eq_singleton_of_getLast? {α : Type} (l : List α) (x : α)
    (hle : l.length ≤ 1) (h : l.getLast? = some x) : l = [x] := by
  match l with
  | [] => simp at h
  | [a] =>
    have : a = x := by simpa using h
    rw [this]
  | a :: b :: t => simp at hle

theorem filter_parts_nil {p : Elem → Bool} {l1 l2 : List Elem} {x : Elem}
    (hf : (l1 ++ x :: l2).filter p = [x]) :
    l1.filter p = [] ∧ l2.filter p = [] := by
  rw [List.filter_append] at hf
  have hlen := congrArg List.length hf
  rw [List.length_append] at hlen
  by_cases hx : p x
  · rw [List.filter_cons, if_pos hx] at hf hlen
    simp only [List.length_cons, List.length_nil] at hlen
    have h1 : (l1.filter p).length = 0 := by omega
    have h2 : (l2.filter p).length = 0 := by omega
    exact ⟨List.length_eq_zero.mp h1, List.length_eq_zero.mp h2⟩
  · exfalso
    rw [List.filter_cons, if_neg hx] at hf
    have : x ∈ l1.filter p ++ l2.filter p := by rw [hf]; exact List.mem_singleton.mpr rfl
    rcases List.mem_append.mp this with h1 | h2
    · exact hx (List.of_mem_filter h1)
    · exact hx (List.of_mem_filter h2)

/-- The running invariant of the `replace` merge scan: body ids are
duplicate-free and partitioned into original target ids and fresh copy ids,
source-index entries are original (never copied) elements, the pair-key set
extends the target pair keys only by keys of new-source incoming units, and
per normalized source the state is either untouched (index and body slice as
built from the target) or replaced/added (the index holds an incoming
element whose id is no longer in the body, and the body slice is exactly its
fresh copy). -/
def MInv (sl tl : String) (A0 B0 : List Elem) (pairsA : List String)
    (srcA : List (String × Elem)) (LA fresh0 : Nat) (st : MergeSt) : Prop :=
  (st.body.map Elem.id).Nodup
  ∧ (∀ x ∈ st.body, x.id < LA ∨ (fresh0 ≤ x.id ∧ x.id < st.fresh))
  ∧ fresh0 ≤ st.fresh
  ∧ (∀ q ∈ st.sources, q.2.id < fresh0)
  ∧ (∀ k ∈ pairsA, k ∈ st.pairs)
  ∧ (∀ k ∈ st.pairs, k ∈ pairsA ∨ ∃ e ∈ B0, ∃ es et,
      getTuTexts sl tl e.tu = some (es, et)
      ∧ k = pairKeyStr (normalize es) (normalize et)
      ∧ lookupA srcA (normalize es) = none)
  ∧ ∀ ns,
      (lookupA st.sources ns = lookupA srcA ns
        ∧ st.body.filter (fun e => decide (elemNS sl tl e = some ns))
            = A0.filter (fun e => decide (elemNS sl tl e = some ns)))
      ∨ (∃ e ∈ B0, elemNS sl tl e = some ns
          ∧ lookupA st.sources ns = some e
          ∧ (∀ x ∈ st.body, x.id ≠ e.id)
          ∧ ∃ c, st.body.filter (fun x => decide (elemNS sl tl x = some ns)) = [c]
              ∧ c.tu = e.tu)

/-- Outcome of the `replace` merge scan, per normalized source present in
the target index: on a completing run, a source slice still untouched at
scan start either stays as built from the target (no conflicting incoming
unit) or becomes exactly the copy of each conflicting incoming unit; a slice
already replaced sees no further conflicting unit. -/
theorem mergeLoopReplace_spec (sl tl : String) (A0 B0 : List Elem)
    (pairsA : List String) (srcA : List (String × Elem)) (LA fresh0 : Nat)
    (hLA : LA ≤ fresh0)
    (hH1 : (A0.filterMap (elemNS sl tl)).Nodup)
    (hsrcA : ∀ ns, lookupA srcA ns
        = (A0.filter fun e => decide (elemNS sl tl e = some ns)).getLast?)
    (hB_pipe : ∀ e ∈ B0, ∀ s t, getTuTexts sl tl e.tu = some (s, t) →
        '|' ∉ (normalize s).data ∧ '|' ∉ (normalize t).data)
    (hB_ids : ∀ e ∈ B0, LA ≤ e.id ∧ e.id < fresh0) :
    ∀ (Bs : List Elem) (st : MergeSt) (body' : List Elem) (a' s' r' t' : Nat),
      (∀ e ∈ Bs, e ∈ B0) →
      MInv sl tl A0 B0 pairsA srcA LA fresh0 st →
      mergeLoop sl tl .replace Bs st = .ok body' a' s' r' t' →
      ∀ ns, lookupA srcA ns ≠ none →
        ((lookupA st.sources ns = lookupA srcA ns
            ∧ st.body.filter (fun e => decide (elemNS sl tl e = some ns))
                = A0.filter (fun e => decide (elemNS sl tl e = some ns))) →
          ((Bs.filter (conflB sl tl pairsA ns) = [] →
              body'.filter (fun e => decide (elemNS sl tl e = some ns))
                = A0.filter (fun e => decide (elemNS sl tl e = some ns)))
            ∧ ∀ e ∈ Bs.filter (conflB sl tl pairsA ns),
                (body'.filter (fun x => decide (elemNS sl tl x = some ns))).map Elem.tu
                  = [e.tu]))
        ∧ (∀ e0, e0 ∈ B0 → elemNS sl tl e0 = some ns →
            lookupA st.sources ns = some e0 →
            (∀ x ∈ st.body, x.id ≠ e0.id) →
            (∃ c, st.body.filter (fun x => decide (elemNS sl tl x = some ns)) = [c]
              ∧ c.tu = e0.tu) →
            Bs.filter (conflB sl tl pairsA ns) = []
            ∧ (body'.filter (fun x => decide (elemNS sl tl x = some ns))).map Elem.tu
                = [e0.tu]) := by
  intro Bs
  induction Bs with
  | nil =>
    intro st body' a' s' r' t' _ _ h ns _
    simp only [mergeLoop, MergeOut.ok.injEq] at h
    obtain ⟨rfl, _, _, _, _⟩ := h
    constructor
    · intro hpsu
      refine ⟨fun _ => hpsu.2, ?_⟩
      intro e he
      simp at he
    · intro e0 _ _ _ _ hc
      obtain ⟨c, hcf, hct⟩ := hc
      exact ⟨rfl, by rw [hcf, List.map_singleton, hct]⟩
  | cons e0 rest ih =>
    intro st body' a' s' r' t' hBs hinv h ns hdom
    obtain ⟨I1, I2, I3, I4, I5, I6, I7⟩ := hinv
    have he0B : e0 ∈ B0 := hBs e0 (List.mem_cons_self _ _)
    have hrestB : ∀ e ∈ rest, e ∈ B0 := fun e he => hBs e (List.mem_cons_of_mem _ he)
    rw [mergeLoop] at h
    cases htex : getTuTexts sl tl e0.tu with
    | none =>
      rw [htex] at h
      have hconf : conflB sl tl pairsA ns e0 = false := by
        simp [conflB, htex]
      have hfc : (e0 :: rest).filter (conflB sl tl pairsA ns)
          = rest.filter (conflB sl tl pairsA ns) := by
        rw [List.filter_cons, hconf]
        simp
      rw [hfc]
      exact ih st body' a' s' r' t' hrestB ⟨I1, I2, I3, I4, I5, I6, I7⟩ h ns hdom
    | some p =>
      rw [htex] at h
      simp only at h
      set ns0 := normalize p.1 with hns0
      set pk0 := pairKeyStr ns0 (normalize p.2) with hpk0
      have hNSe0 : elemNS sl tl e0 = some ns0 := by
        simp [elemNS, htex, hns0]
      by_cases hpk : pk0 ∈ st.pairs
      · -- skip branch: the pair key already exists
        rw [if_pos hpk] at h
        have hconf : conflB sl tl pairsA ns e0 = false := by
          by_cases hns : ns0 = ns
          · -- the key must come from the target (not from an added
            -- new-source key, whose source is absent from the index)
            rcases I6 pk0 hpk with hA | ⟨e', he', es', et', htex', hkeq, hlook'⟩
            · simp only [conflB, htex]
              rw [← hns0, ← hpk0]
              simp [hA]
            · exfalso
              have hp1 := (hB_pipe e0 he0B p.1 p.2 htex).1
              have hp2 := (hB_pipe e' he' es' et' htex').1
              have := pairKeyStr_inj hp1 hp2 (hpk0 ▸ hkeq)
              rw [← hns0] at this
              rw [← this.1, hns] at hlook'
              exact hdom hlook'
          · simp only [conflB, htex]
            rw [← hns0]
            simp [hns]
        have hfc : (e0 :: rest).filter (conflB sl tl pairsA ns)
            = rest.filter (conflB sl tl pairsA ns) := by
          rw [List.filter_cons, hconf]
          simp
        rw [hfc]
        exact ih { st with skipped := st.skipped + 1 } body' a' s' r' t' hrestB
          ⟨I1, I2, I3, I4, I5, I6, I7⟩ h ns hdom
      · -- the pair key is new
        rw [if_neg hpk] at h
        have hpkA : pk0 ∉ pairsA := fun hk => hpk (I5 pk0 hk)
        cases hlook : lookupA st.sources ns0 with
        | some old =>
          rw [hlook] at h
          simp only at h
          cases hrem : removeFirstById st.body old.id with
          | none =>
            rw [hrem] at h
            simp only at h
            cases h
          | some body'' =>
            rw [hrem] at h
            simp only at h
            rcases I7 ns0 with ⟨hU1, hU2⟩ |
              ⟨er, herB, _, herLook, herIds, _, _, _⟩
            · -- the slice at ns0 is still untouched: a genuine replace
              have hlookA : lookupA srcA ns0 = some old := by rw [← hU1]; exact hlook
              have hfilterA : A0.filter (fun e => decide (elemNS sl tl e = some ns0))
                  = [old] := by
                apply eq_singleton_of_getLast? _ _ (filter_ns_length_le_one sl tl A0 hH1 ns0)
                rw [← hsrcA]
                exact hlookA
              have hbodyf : st.body.filter (fun e => decide (elemNS sl tl e = some ns0))
                  = [old] := by rw [hU2, hfilterA]
              have holdf : old ∈ st.body.filter
                  (fun e => decide (elemNS sl tl e = some ns0)) := by
                rw [hbodyf]
                exact List.mem_singleton.mpr rfl
              have holdmem : old ∈ st.body := List.mem_of_mem_filter holdf
              have holdNS : elemNS sl tl old = some ns0 := by
                have := List.of_mem_filter holdf
                simpa using this
              obtain ⟨l1, l2, hsplit, hrem2⟩ := removeFirstById_of_mem st.body old I1 holdmem
              have hbody'' : body'' = l1 ++ l2 := by
                rw [hrem] at hrem2
                exact Option.some.inj hrem2
              subst hbody''
              have hparts := filter_parts_nil
                (p := fun e => decide (elemNS sl tl e = some ns0)) (hsplit ▸ hbodyf)
              have hcNS : elemNS sl tl (⟨st.fresh, e0.tu⟩ : Elem) = some ns0 := by
                simp [elemNS, htex, hns0]
              have hsub12 : ∀ x ∈ l1 ++ l2, x ∈ st.body := by
                intro x hx
                rw [hsplit]
                rcases List.mem_append.mp hx with h1 | h2
                · exact List.mem_append.mpr (Or.inl h1)
                · exact List.mem_append.mpr (Or.inr (List.mem_cons_of_mem _ h2))
              have hidlt : ∀ x ∈ st.body, x.id < st.fresh := by
                intro x hx
                rcases I2 x hx with hxa | hxb
                · omega
                · omega
              have hnd12 : ((l1 ++ l2).map Elem.id).Nodup := by
                refine List.Nodup.sublist ?_ I1
                refine List.Sublist.map Elem.id ?_
                rw [hsplit]
                exact (List.sublist_cons_self old l2).append_left l1
              -- the per-source body slices of the new body
              have hbodyfilter : ∀ ns',
                  ((l1 ++ l2) ++ [(⟨st.fresh, e0.tu⟩ : Elem)]).filter
                      (fun e => decide (elemNS sl tl e = some ns'))
                    = if ns0 = ns' then [(⟨st.fresh, e0.tu⟩ : Elem)]
                      else st.body.filter (fun e => decide (elemNS sl tl e = some ns')) := by
                intro ns'
                by_cases hns' : ns0 = ns'
                · subst hns'
                  rw [if_pos rfl]
                  rw [List.filter_append, List.filter_append, hparts.1, hparts.2]
                  simp [hcNS]
                · rw [if_neg hns']
                  rw [List.filter_append, List.filter_append]
                  have hcno : (decide (elemNS sl tl (⟨st.fresh, e0.tu⟩ : Elem) = some ns'))
                      = false := by simp [hcNS, hns']
                  have holdno : (decide (elemNS sl tl old = some ns')) = false := by
                    simp [holdNS, hns']
                  rw [hsplit, List.filter_append, List.filter_cons]
                  simp [holdno, hcno]
              -- invariant for the post-replace state
              have hinv2 : MInv sl tl A0 B0 pairsA srcA LA fresh0
                  { st with
                    body := (l1 ++ l2) ++ [⟨st.fresh, e0.tu⟩]
                    sources := (ns0, e0) :: st.sources
                    replaced := st.replaced + 1
                    fresh := st.fresh + 1 } := by
                refine ⟨?_, ?_, ?_, ?_, ?_, ?_, ?_⟩
                · show (((l1 ++ l2) ++ [(⟨st.fresh, e0.tu⟩ : Elem)]).map Elem.id).Nodup
                  rw [List.map_append]
                  refine List.Nodup.append hnd12 (by simp) ?_
                  intro x hx hx'
                  simp only [List.map_cons, List.map_nil, List.mem_singleton] at hx'
                  obtain ⟨y, hy, rfl⟩ := List.mem_map.mp hx
                  exact absurd hx' (by have := hidlt y (hsub12 y hy); omega)
                · intro x hx
                  rcases List.mem_append.mp hx with h1 | h2
                  · have := I2 x (hsub12 x h1)
                    show x.id < LA ∨ (fresh0 ≤ x.id ∧ x.id < st.fresh + 1)
                    omega
                  · simp only [List.mem_singleton] at h2
                    subst h2
                    show (⟨st.fresh, e0.tu⟩ : Elem).id < LA
                      ∨ (fresh0 ≤ (⟨st.fresh, e0.tu⟩ : Elem).id
                        ∧ (⟨st.fresh, e0.tu⟩ : Elem).id < st.fresh + 1)
                    right
                    constructor
                    · show fresh0 ≤ st.fresh
                      omega
                    · show st.fresh < st.fresh + 1
                      omega
                · show fresh0 ≤ st.fresh + 1
                  omega
                · intro q hq
                  rcases List.mem_cons.mp hq with rfl | hq'
                  · show e0.id < fresh0
                    exact (hB_ids e0 he0B).2
                  · exact I4 q hq'
                · exact I5
                · exact I6
                · intro ns'
                  by_cases hns' : ns0 = ns'
                  · right
                    refine ⟨e0, he0B, hns' ▸ hNSe0, ?_, ?_, ⟨st.fresh, e0.tu⟩, ?_, rfl⟩
                    · show lookupA ((ns0, e0) :: st.sources) ns' = some e0
                      rw [lookupA_cons, if_pos hns']
                    · intro x hx
                      rcases List.mem_append.mp hx with h1 | h2
                      · have hxb := I2 x (hsub12 x h1)
                        have he0b := hB_ids e0 he0B
                        omega
                      · simp only [List.mem_singleton] at h2
                        subst h2
                        have he0b := hB_ids e0 he0B
                        show st.fresh ≠ e0.id
                        omega
                    · rw [hbodyfilter ns', if_pos hns']
                  · rcases I7 ns' with ⟨hV1, hV2⟩ | ⟨e', he'B, he'NS, he'Look, he'Ids, c', hc'f, hc't⟩
                    · left
                      constructor
                      · show lookupA ((ns0, e0) :: st.sources) ns' = lookupA srcA ns'
                        rw [lookupA_cons, if_neg hns']
                        exact hV1
                      · rw [hbodyfilter ns', if_neg hns']
                        exact hV2
                    · right
                      refine ⟨e', he'B, he'NS, ?_, ?_, c', ?_, hc't⟩
                      · show lookupA ((ns0, e0) :: st.sources) ns' = some e'
                        rw [lookupA_cons, if_neg hns']
                        exact he'Look
                      · intro x hx
                        rcases List.mem_append.mp hx with h1 | h2
                        · exact he'Ids x (hsub12 x h1)
                        · simp only [List.mem_singleton] at h2
                          subst h2
                          have he'b := hB_ids e' he'B
                          show st.fresh ≠ e'.id
                          omega
                      · rw [hbodyfilter ns', if_neg hns']
                        exact hc'f
              have hIH := ih _ body' a' s' r' t' hrestB hinv2 h
              by_cases hns : ns0 = ns
              · -- the conclusion source is the replaced one
                subst hns
                have hconfT : conflB sl tl pairsA ns0 e0 = true := by
                  simp only [conflB, htex]
                  rw [← hns0, ← hpk0]
                  simp [hpkA]
                have hfc : (e0 :: rest).filter (conflB sl tl pairsA ns0)
                    = e0 :: rest.filter (conflB sl tl pairsA ns0) := by
                  rw [List.filter_cons, hconfT]
                  simp
                have hPSR := (hIH ns0 hdom).2 e0 he0B hNSe0
                  (by
                    show lookupA ((ns0, e0) :: st.sources) ns0 = some e0
                    rw [lookupA_cons, if_pos rfl])
                  (by
                    intro x hx
                    rcases List.mem_append.mp hx with h1 | h2
                    · have hxb := I2 x (hsub12 x h1)
                      have he0b := hB_ids e0 he0B
                      omega
                    · simp only [List.mem_singleton] at h2
                      subst h2
                      have he0b := hB_ids e0 he0B
                      show st.fresh ≠ e0.id
                      omega)
                  ⟨⟨st.fresh, e0.tu⟩, by rw [hbodyfilter ns0, if_pos rfl], rfl⟩
                constructor
                · intro _
                  rw [hfc]
                  refine ⟨fun hnil => absurd hnil (by simp), ?_⟩
                  intro e he
                  rcases List.mem_cons.mp he with rfl | he'
                  · exact hPSR.2
                  · rw [hPSR.1] at he'
                    simp at he'
                · intro e0' he0'B hNS' hlook' hids' _
                  exfalso
                  rw [hlook] at hlook'
                  have : old = e0' := Option.some.inj hlook'
                  subst this
                  exact hids' old holdmem rfl
              · -- an unrelated source: the slice is untouched by this step
                have hconfF : conflB sl tl pairsA ns e0 = false := by
                  simp only [conflB, htex]
                  rw [← hns0]
                  simp [hns]
                have hfc : (e0 :: rest).filter (conflB sl tl pairsA ns)
                    = rest.filter (conflB sl tl pairsA ns) := by
                  rw [List.filter_cons, hconfF]
                  simp
                rw [hfc]
                constructor
                · intro hpsu
                  refine (hIH ns hdom).1 ?_
                  constructor
                  · show lookupA ((ns0, e0) :: st.sources) ns = lookupA srcA ns
                    rw [lookupA_cons, if_neg hns]
                    exact hpsu.1
                  · rw [hbodyfilter ns, if_neg hns]
                    exact hpsu.2
                · intro e0' he0'B hNS' hlook' hids' hex'
                  obtain ⟨c', hc'f, hc't⟩ := hex'
                  refine (hIH ns hdom).2 e0' he0'B hNS' ?_ ?_ ⟨c', ?_, hc't⟩
                  · show lookupA ((ns0, e0) :: st.sources) ns = some e0'
                    rw [lookupA_cons, if_neg hns]
                    exact hlook'
                  · intro x hx
                    rcases List.mem_append.mp hx with h1 | h2
                    · exact hids' x (hsub12 x h1)
                    · simp only [List.mem_singleton] at h2
                      subst h2
                      have he0'b := hB_ids e0' he0'B
                      show st.fresh ≠ e0'.id
                      omega
                  · rw [hbodyfilter ns, if_neg hns]
                    exact hc'f
            · -- the slice at ns0 was already replaced: removal must fail,
              -- contradicting the successful removal
              exfalso
              rw [hlook] at herLook
              have : old = er := Option.some.inj herLook
              subst this
              have := removeFirstById_none st.body old.id herIds
              rw [hrem] at this
              cases this
        | none =>
          rw [hlook] at h
          simp only at h
          rcases I7 ns0 with ⟨hU1, hU2⟩ | ⟨er, _, _, herLook, _, _, _, _⟩
          · -- a brand-new source: append and index it
            have hlookA0 : lookupA srcA ns0 = none := by rw [← hU1]; exact hlook
            have hnsne : ns0 ≠ ns := fun heq => hdom (heq ▸ hlookA0)
            have hA0f : A0.filter (fun e => decide (elemNS sl tl e = some ns0)) = [] := by
              have hx := hsrcA ns0
              rw [hlookA0] at hx
              exact List.getLast?_eq_none_iff.mp hx.symm
            have hcNS : elemNS sl tl (⟨st.fresh, e0.tu⟩ : Elem) = some ns0 := by
              simp [elemNS, htex, hns0]
            have hidlt : ∀ x ∈ st.body, x.id < st.fresh := by
              intro x hx
              rcases I2 x hx with hxa | hxb
              · omega
              · omega
            have hbodyfilter : ∀ ns',
                (st.body ++ [(⟨st.fresh, e0.tu⟩ : Elem)]).filter
                    (fun e => decide (elemNS sl tl e = some ns'))
                  = if ns0 = ns' then [(⟨st.fresh, e0.tu⟩ : Elem)]
                    else st.body.filter (fun e => decide (elemNS sl tl e = some ns')) := by
              intro ns'
              by_cases hns' : ns0 = ns'
              · rw [if_pos hns']
                rw [List.filter_append]
                have : st.body.filter (fun e => decide (elemNS sl tl e = some ns')) = [] := by
                  rw [← hns', hU2, hA0f]
                rw [this]
                simp [hcNS, hns']
              · rw [if_neg hns']
                rw [List.filter_append]
                have hcno : (decide (elemNS sl tl (⟨st.fresh, e0.tu⟩ : Elem) = some ns'))
                    = false := by simp [hcNS, hns']
                simp [hcno]
            have hinv3 : MInv sl tl A0 B0 pairsA srcA LA fresh0
                { st with
                  body := st.body ++ [⟨st.fresh, e0.tu⟩]
                  pairs := insertS st.pairs pk0
                  sources := (ns0, e0) :: st.sources
                  added := st.added + 1
                  fresh := st.fresh + 1 } := by
              refine ⟨?_, ?_, ?_, ?_, ?_, ?_, ?_⟩
              · show ((st.body ++ [(⟨st.fresh, e0.tu⟩ : Elem)]).map Elem.id).Nodup
                rw [List.map_append]
                refine List.Nodup.append I1 (by simp) ?_
                intro x hx hx'
                simp only [List.map_cons, List.map_nil, List.mem_singleton] at hx'
                obtain ⟨y, hy, rfl⟩ := List.mem_map.mp hx
                exact absurd hx' (by have := hidlt y hy; omega)
              · intro x hx
                rcases List.mem_append.mp hx with h1 | h2
                · have := I2 x h1
                  show x.id < LA ∨ (fresh0 ≤ x.id ∧ x.id < st.fresh + 1)
                  omega
                · simp only [List.mem_singleton] at h2
                  subst h2
                  show (⟨st.fresh, e0.tu⟩ : Elem).id < LA
                    ∨ (fresh0 ≤ (⟨st.fresh, e0.tu⟩ : Elem).id
                      ∧ (⟨st.fresh, e0.tu⟩ : Elem).id < st.fresh + 1)
                  right
                  exact ⟨by show fresh0 ≤ st.fresh; omega, by show st.fresh < st.fresh + 1; omega⟩
              · show fresh0 ≤ st.fresh + 1
                omega
              · intro q hq
                rcases List.mem_cons.mp hq with rfl | hq'
                · show e0.id < fresh0
                  exact (hB_ids e0 he0B).2
                · exact I4 q hq'
              · intro k hk
                exact mem_insertS_of_mem _ _ _ (I5 k hk)
              · intro k hk
                rcases (insertS_mem st.pairs k pk0).mp hk with rfl | hk'
                · exact Or.inr ⟨e0, he0B, p.1, p.2, htex, hpk0, by rw [← hns0]; exact hlookA0⟩
                · exact I6 k hk'
              · intro ns'
                by_cases hns' : ns0 = ns'
                · right
                  refine ⟨e0, he0B, hns' ▸ hNSe0, ?_, ?_, ⟨st.fresh, e0.tu⟩, ?_, rfl⟩
                  · show lookupA ((ns0, e0) :: st.sources) ns' = some e0
                    rw [lookupA_cons, if_pos hns']
                  · intro x hx
                    rcases List.mem_append.mp hx with h1 | h2
                    · have hxb := I2 x h1
                      have he0b := hB_ids e0 he0B
                      omega
                    · simp only [List.mem_singleton] at h2
                      subst h2
                      have he0b := hB_ids e0 he0B
                      show st.fresh ≠ e0.id
                      omega
                  · rw [hbodyfilter ns', if_pos hns']
                · rcases I7 ns' with ⟨hV1, hV2⟩ | ⟨e', he'B, he'NS, he'Look, he'Ids, c', hc'f, hc't⟩
                  · left
                    constructor
                    · show lookupA ((ns0, e0) :: st.sources) ns' = lookupA srcA ns'
                      rw [lookupA_cons, if_neg hns']
                      exact hV1
                    · rw [hbodyfilter ns', if_neg hns']
                      exact hV2
                  · right
                    refine ⟨e', he'B, he'NS, ?_, ?_, c', ?_, hc't⟩
                    · show lookupA ((ns0, e0) :: st.sources) ns' = some e'
                      rw [lookupA_cons, if_neg hns']
                      exact he'Look
                    · intro x hx
                      rcases List.mem_append.mp hx with h1 | h2
                      · exact he'Ids x h1
                      · simp only [List.mem_singleton] at h2
                        subst h2
                        have he'b := hB_ids e' he'B
                        show st.fresh ≠ e'.id
                        omega
                    · rw [hbodyfilter ns', if_neg hns']
                      exact hc'f
            have hIH := ih _ body' a' s' r' t' hrestB hinv3 h
            have hconfF : conflB sl tl pairsA ns e0 = false := by
              simp only [conflB, htex]
              rw [← hns0]
              simp [hnsne]
            have hfc : (e0 :: rest).filter (conflB sl tl pairsA ns)
                = rest.filter (conflB sl tl pairsA ns) := by
              rw [List.filter_cons, hconfF]
              simp
            rw [hfc]
            constructor
            · intro hpsu
              refine (hIH ns hdom).1 ?_
              constructor
              · show lookupA ((ns0, e0) :: st.sources) ns = lookupA srcA ns
                rw [lookupA_cons, if_neg hnsne]
                exact hpsu.1
              · rw [hbodyfilter ns, if_neg hnsne]
                exact hpsu.2
            · intro e0' he0'B hNS' hlook' hids' hex'
              obtain ⟨c', hc'f, hc't⟩ := hex'
              refine (hIH ns hdom).2 e0' he0'B hNS' ?_ ?_ ⟨c', ?_, hc't⟩
              · show lookupA ((ns0, e0) :: st.sources) ns = some e0'
                rw [lookupA_cons, if_neg hnsne]
                exact hlook'
              · intro x hx
                rcases List.mem_append.mp hx with h1 | h2
                · exact hids' x h1
                · simp only [List.mem_singleton] at h2
                  subst h2
                  have he0'b := hB_ids e0' he0'B
                  show st.fresh ≠ e0'.id
                  omega
              · rw [hbodyfilter ns, if_neg hnsne]
                exact hc'f
          · -- impossible: a replaced slice has an index entry
            rw [herLook] at hlook
            cases hlook

theorem tagElems_tu_mem (l : List TU) (b : Nat) :
    ∀ e ∈ tagElems l b, e.tu ∈ l := by
  intro e he
  obtain ⟨p, hp, rfl⟩ := List.mem_map.mp he
  show p.2 ∈ l
  have : p.2 ∈ l.enum.map Prod.snd := List.mem_map.mpr ⟨p, hp, rfl⟩
  rwa [List.enum_map_snd] at this

/-- C4 counterexample: with a target memory holding two units for the same
normalized source, a completing `replace` merge leaves the conflicted source
present twice, and the source index maps the source to the last (not the
first) unit of the target. -/
theorem merge_replace_conflict_cx :
    mergeFrom "en" "fr" "en" "fr" [sampleTU "a" "x1", sampleTU "a" "x2"]
        [sampleTU "a" "y"] .replace
      = .ok [⟨0, sampleTU "a" "x1"⟩, ⟨3, sampleTU "a" "y"⟩] 0 0 1 2
    ∧ (([⟨0, sampleTU "a" "x1"⟩, ⟨3, sampleTU "a" "y"⟩] : List Elem).filter
        (fun e => decide (elemNS "en" "fr" e = some "a"))).length = 2
    ∧ lookupA (buildIndex "en" "fr"
          (tagElems [sampleTU "a" "x1", sampleTU "a" "x2"] 0)).2 "a"
        = some ⟨1, sampleTU "a" "x2"⟩ := by
  decide

/-- C4 (amended): when the valid units of the target memory carry pairwise
distinct normalized sources and no normalized text of either memory contains
a pipe character, then after a completing `replace` merge (both memories
read under the same language pair) the source index maps each normalized
source to the unique unit of the target carrying it, and every conflicted
source appears in the final body exactly once, carrying the conflicting
incoming unit. -/
theorem merge_replace_conflicts_spec (sl tl : String) (A B : List TU)
    (hH1 : ((tagElems A 0).filterMap (elemNS sl tl)).Nodup)
    (hpipe : ∀ tu ∈ A ++ B, ∀ s t, getTuTexts sl tl tu = some (s, t) →
        '|' ∉ (normalize s).data ∧ '|' ∉ (normalize t).data)
    (body' : List Elem) (a s r t : Nat)
    (hok : mergeFrom sl tl sl tl A B .replace = .ok body' a s r t) :
    (∀ ns, lookupA (buildIndex sl tl (tagElems A 0)).2 ns
        = ((tagElems A 0).filter fun e => decide (elemNS sl tl e = some ns)).head?)
    ∧ ∀ tuB ∈ B, ∀ src tgt, getTuTexts sl tl tuB = some (src, tgt) →
        lookupA (buildIndex sl tl (tagElems A 0)).2 (normalize src) ≠ none →
        pairKeyStr (normalize src) (normalize tgt)
            ∉ (buildIndex sl tl (tagElems A 0)).1 →
        (body'.filter fun e => decide (elemNS sl tl e = some (normalize src))).map Elem.tu
          = [tuB] := by
  have hsrcA : ∀ ns, lookupA (buildIndex sl tl (tagElems A 0)).2 ns
      = ((tagElems A 0).filter fun e => decide (elemNS sl tl e = some ns)).getLast? := by
    intro ns
    have h0 : lookupA (buildIndex sl tl (tagElems A 0)).2 ns
        = match ((tagElems A 0).filter fun e =>
            decide (elemNS sl tl e = some ns)).getLast? with
          | some e => some e
          | none => lookupA ([] : List (String × Elem)) ns :=
      buildIndex_sources_lookup sl tl (tagElems A 0) ([], []) ns
    rw [h0]
    cases ((tagElems A 0).filter fun e => decide (elemNS sl tl e = some ns)).getLast? <;>
      rfl
  have hBpipe : ∀ e ∈ tagElems B A.length, ∀ s t,
      getTuTexts sl tl e.tu = some (s, t) →
      '|' ∉ (normalize s).data ∧ '|' ∉ (normalize t).data := by
    intro e he s' t' htex
    exact hpipe e.tu (List.mem_append.mpr (Or.inr (tagElems_tu_mem B A.length e he)))
      s' t' htex
  have hBids : ∀ e ∈ tagElems B A.length, A.length ≤ e.id ∧ e.id < A.length + B.length := by
    intro e he
    exact tagElems_id_bounds B A.length e he
  have hinv0 : MInv sl tl (tagElems A 0) (tagElems B A.length)
      (buildIndex sl tl (tagElems A 0)).1 (buildIndex sl tl (tagElems A 0)).2
      A.length (A.length + B.length)
      { body := tagElems A 0
        pairs := (buildIndex sl tl (tagElems A 0)).1
        sources := (buildIndex sl tl (tagElems A 0)).2
        added := 0, skipped := 0, replaced := 0
        fresh := A.length + B.length } := by
    refine ⟨?_, ?_, ?_, ?_, ?_, ?_, ?_⟩
    · exact tagElems_ids_nodup A 0
    · intro x hx
      have := tagElems_id_bounds A 0 x hx
      left
      omega
    · show A.length + B.length ≤ A.length + B.length
      omega
    · intro q hq
      rcases buildIndex_sources_mem sl tl (tagElems A 0) ([], []) q hq with h1 | h2
      · simp at h1
      · have := tagElems_id_bounds A 0 q.2 h2
        show q.2.id < A.length + B.length
        omega
    · intro k hk
      exact hk
    · intro k hk
      exact Or.inl hk
    · intro ns
      exact Or.inl ⟨rfl, rfl⟩
  have hmain := mergeLoopReplace_spec sl tl (tagElems A 0) (tagElems B A.length)
    (buildIndex sl tl (tagElems A 0)).1 (buildIndex sl tl (tagElems A 0)).2
    A.length (A.length + B.length) (by omega) hH1 hsrcA hBpipe hBids
    (tagElems B A.length)
    { body := tagElems A 0
      pairs := (buildIndex sl tl (tagElems A 0)).1
      sources := (buildIndex sl tl (tagElems A 0)).2
      added := 0, skipped := 0, replaced := 0
      fresh := A.length + B.length }
    body' a s r t (fun e he => he) hinv0 hok
  constructor
  · intro ns
    rw [hsrcA ns]
    exact getLast?_eq_head?_of_le_one _
      (filter_ns_length_le_one sl tl (tagElems A 0) hH1 ns)
  · intro tuB hB src tgt htex hdom hpk
    obtain ⟨e, heB0, hetu⟩ := tagElems_mem_of_mem B A.length tuB hB
    have hePSU := (hmain (normalize src) hdom).1 ⟨rfl, rfl⟩
    have heConf : e ∈ (tagElems B A.length).filter
        (conflB sl tl (buildIndex sl tl (tagElems A 0)).1 (normalize src)) := by
      rw [List.mem_filter]
      refine ⟨heB0, ?_⟩
      simp only [conflB, hetu, htex]
      simp [hpk]
    have := hePSU.2 e heConf
    rw [this, hetu]

/-- C4 (amended) witness: the specification applied to the one-conflict
merge of A = [("a","x")] with B = [("a","y")] under `replace`. -/
theorem merge_replace_conflicts_spec_witness :
    (([⟨2, sampleTU "a" "y"⟩] : List Elem).filter
        (fun e => decide (elemNS "en" "fr" e = some (normalize "a")))).map Elem.tu
      = [sampleTU "a" "y"] :=
  (merge_replace_conflicts_spec "en" "fr" [sampleTU "a" "x"] [sampleTU "a" "y"]
      (by decide)
      (by
        intro tu htu s t htex
        have h1 : tu = sampleTU "a" "x" ∨ tu = sampleTU "a" "y" := by
          simpa using htu
        rcases h1 with rfl | rfl
        · have heval : getTuTexts "en" "fr" (sampleTU "a" "x") = some ("a", "x") := by
            decide
          rw [heval] at htex
          injection htex with h
          injection h with h1 h2
          subst h1
          subst h2
          decide
        · have heval : getTuTexts "en" "fr" (sampleTU "a" "y") = some ("a", "y") := by
            decide
          rw [heval] at htex
          injection htex with h
          injection h with h1 h2
          subst h1
          subst h2
          decide)
      [⟨2, sampleTU "a" "y"⟩] 0 0 1 1 (by decide)).2
    (sampleTU "a" "y") (by decide) "a" "y" (by decide) (by decide) (by decide)

end TMX
